import Mathlib

/-!
Verification development for the `conslog` console handler: a colorized,
indentation-based renderer of structured log records.

The definitions below are a shallow embedding of the Go source
(package `conslog`): ANSI color constants, the `colorize` helper, the
indentation cache `getIndent`, `normalizeKey`, the recursive attribute
renderer `appendAttr`, the handler state with its transformations
`WithAttrs` / `WithGroup`, the severity filter `Enabled`, and the
record renderer `Handle`.  Machine integers of the source are modelled
as `Int` / `Nat`; the `strings.Builder` accumulation is modelled by
returning the appended text; a `panic` is modelled as `Except.error`
carrying the panic message (a panicking `Handle` never writes to the
sink, matching the Go control flow where the builder is discarded).
Values of "other" kind carry the JSON tree the Go `json` encoder would
serialize (already escaped scalar tokens), or an encoding-failure
marker for unserializable values such as channels; the pretty-printing
encoder `encJ` mirrors `json.Encoder` with `SetIndent(prefix, "  ")`.
`slog.Value.Resolve` is the identity here: values are modelled already
resolved (no `LogValuer` in the model).
-/

namespace Conslog

/-! ### ANSI color constants and `colorize` (source: const block, func colorize) -/

def ansiCyan : String := "\x1b[36m"

def ansiLightGray : String := "\x1b[37m"

def ansiDarkGray : String := "\x1b[90m"

def ansiLightRed : String := "\x1b[91m"

def ansiLightYellow : String := "\x1b[93m"

def ansiLightBlue : String := "\x1b[94m"

def ansiLightMagenta : String := "\x1b[95m"

def ansiWhite : String := "\x1b[97m"

def ansiReset : String := "\x1b[0m"

/-- `colorize` wraps text with an ANSI color code and the reset sequence. -/
def colorize (ansiColor v : String) : String := ansiColor ++ v ++ ansiReset

/-! ### Severity levels (slog's numeric levels) -/

abbrev Level := Int

def LevelError : Level := 8

def LevelWarn : Level := 4

def LevelInfo : Level := 0

def LevelDebug : Level := -4

/-- Decimal digit character, via lookup in the digit alphabet. -/
def digitChar (d : Nat) : Char := "0123456789".data.getD (d % 10) '0'

/-- Fuel-driven decimal digit expansion (most significant digit first). -/
def natDigitsGo : Nat → Nat → List Char
  | 0, _ => []
  | fuel + 1, n =>
    if n < 10 then [digitChar n]
    else natDigitsGo fuel (n / 10) ++ [digitChar (n % 10)]

/-- Decimal representation of a natural number. -/
def natRepr (n : Nat) : String := ⟨natDigitsGo (n + 1) n⟩

/-- Signed decimal with an explicit sign, as Go's `%+d` verb prints it. -/
def intSigned (v : Int) : String :=
  if v < 0 then "-" ++ natRepr (-v).toNat else "+" ++ natRepr v.toNat

/-- `slog.Level.String`'s helper: base name plus offset when nonzero. -/
def levelStr (base : String) (val : Int) : String :=
  if val = 0 then base else base ++ intSigned val

/-- `slog.Level.String`: the textual label of a severity level. -/
def levelString (l : Level) : String :=
  if l < LevelInfo then levelStr "DEBUG" (l - LevelDebug)
  else if l < LevelWarn then levelStr "INFO" (l - LevelInfo)
  else if l < LevelError then levelStr "WARN" (l - LevelWarn)
  else levelStr "ERROR" (l - LevelError)

/-- The six-band severity-to-color switch inside `Handle`. -/
def levelColor (l : Level) : String :=
  if l ≤ LevelDebug then ansiLightGray
  else if l ≤ LevelInfo then ansiCyan
  else if l < LevelWarn then ansiLightBlue
  else if l < LevelError then ansiLightYellow
  else if l ≤ LevelError + 1 then ansiLightRed
  else ansiLightMagenta

/-! ### Indentation cache (source: const maxIndent, var indentCache, func getIndent) -/

def maxIndent : Nat := 30

/-- `strings.Repeat("  ", n)`: `2 * n` space characters. -/
def twoSpaceRep (n : Nat) : String := ⟨List.replicate (2 * n) ' '⟩

/-- The lazily initialized cache table: indentation strings for levels `0..maxIndent`.
The lock-free at-most-once initialization is concurrency machinery; its stable
published value is this table. -/
def indentCache : List String := (List.range (maxIndent + 1)).map twoSpaceRep

/-- `getIndent`: cached lookup for levels up to `maxIndent`, uncached fallback
computation beyond it. -/
def getIndent (indent : Nat) : String :=
  if indent ≤ maxIndent then indentCache.getD indent (twoSpaceRep indent)
  else twoSpaceRep indent

/-- `normalizeKey` replaces an empty key with a quoted empty string. -/
def normalizeKey (key : String) : String := if key = "" then "\"\"" else key

/-! ### JSON values for "other"-kind attributes, and the indenting encoder -/

mutual

inductive JVal : Type where
  | scalar (tok : String)
  | arr (es : JList)
  | obj (fs : JFields)

inductive JList : Type where
  | nil
  | cons (j : JVal) (rest : JList)

inductive JFields : Type where
  | nil
  | cons (k : String) (j : JVal) (rest : JFields)

end

def isNilJL : JList → Bool
  | .nil => true
  | .cons _ _ => false

def isNilJF : JFields → Bool
  | .nil => true
  | .cons _ _ _ => false

/-- The two-space indent unit of the encoder, repeated `d` times. -/
def jIndent (d : Nat) : String := ⟨List.replicate (2 * d) ' '⟩

mutual

/-- `json.Encoder` with `SetIndent(p, "  ")`: pretty-printed encoding of a
value at depth `d`.  Every newline inside the encoded text is followed by
the prefix `p` and the indent unit repeated by the element's depth. -/
def encJ (p : String) (d : Nat) : JVal → String
  | .scalar tok => tok
  | .arr es =>
    if isNilJL es then "[]"
    else "[\n" ++ encJArr p (d + 1) es ++ "\n" ++ p ++ jIndent d ++ "]"
  | .obj fs =>
    if isNilJF fs then "\x7b\x7d"
    else "\x7b\n" ++ encJObj p (d + 1) fs ++ "\n" ++ p ++ jIndent d ++ "\x7d"

def encJArr (p : String) (d : Nat) : JList → String
  | .nil => ""
  | .cons j rest =>
    p ++ jIndent d ++ encJ p d j
      ++ (if isNilJL rest then "" else ",\n") ++ encJArr p d rest

def encJObj (p : String) (d : Nat) : JFields → String
  | .nil => ""
  | .cons k j rest =>
    p ++ jIndent d ++ "\"" ++ k ++ "\": " ++ encJ p d j
      ++ (if isNilJF rest then "" else ",\n") ++ encJObj p d rest

end

/-- The outcome of handing a structured value to the JSON encoder: either
the JSON tree Go's `json` package would produce, or the marshaling error
for an unserializable value (channel, function, ...). -/
inductive OtherV : Type where
  | enc (j : JVal)
  | bad (err : String)

/-! ### Attributes (slog.Attr with resolved slog.Value) -/

mutual

inductive Attr : Type where
  | mk (key : String) (v : AttrVal)

inductive AttrVal : Type where
  | str (s : String)
  | vnil
  | other (ov : OtherV)
  | group (gs : AttrList)

inductive AttrList : Type where
  | anil
  | acons (a : Attr) (rest : AttrList)

end

def Attr.key : Attr → String
  | .mk k _ => k

def Attr.val : Attr → AttrVal
  | .mk _ v => v

def isNilAL : AttrList → Bool
  | .anil => true
  | .acons _ _ => false

def isVNil : AttrVal → Bool
  | .vnil => true
  | _ => false

def AttrList.append : AttrList → AttrList → AttrList
  | .anil, l => l
  | .acons a rest, l => .acons a (rest.append l)

instance : Append AttrList := ⟨AttrList.append⟩

/-- Membership of an attribute in an attribute list. -/
def AttrList.mem (a : Attr) : AttrList → Prop
  | .anil => False
  | .acons b rest => a = b ∨ rest.mem a

mutual

/-- `appendAttr`: format a single attribute with proper indentation.
Returns the text appended to the builder, or the panic message
(`Except.error`) raised on a marshaling failure. -/
def appendAttr (a : Attr) (indent : Nat) : Except String String :=
  match a with
  | .mk key v =>
    let pfx := getIndent indent
    if key == "" && isVNil v then .ok ""
    else
      match v with
      | .group gs =>
        if isNilAL gs then .ok ""
        else if key == "" then
          appendAttrList gs indent
        else
          match appendAttrList gs (indent + 1) with
          | .error e => .error e
          | .ok inner =>
            .ok (pfx ++ colorize ansiDarkGray (key ++ ":\n") ++ inner)
      | .str s =>
        .ok (pfx ++ colorize ansiDarkGray (normalizeKey key ++ ": \"" ++ s ++ "\"\n"))
      | .vnil =>
        .ok (pfx ++ colorize ansiDarkGray (normalizeKey key ++ ": ")
          ++ colorize ansiDarkGray "null" ++ "\n")
      | .other ov =>
        match ov with
        | .bad err => .error ("log marshaling error: " ++ err)
        | .enc j =>
          .ok (pfx ++ colorize ansiDarkGray (normalizeKey key ++ ": ")
            ++ colorize ansiDarkGray (encJ pfx 0 j) ++ "\n")

/-- Rendering of a list of attributes at a fixed indentation, failing fast
on the first marshaling panic. -/
def appendAttrList (l : AttrList) (indent : Nat) : Except String String :=
  match l with
  | .anil => .ok ""
  | .acons a rest =>
    match appendAttr a indent with
    | .error e => .error e
    | .ok s =>
      match appendAttrList rest indent with
      | .error e => .error e
      | .ok t => .ok (s ++ t)

end

/-! ### Handler state and its operations -/

structure HandlerOptions where
  level : Option Level

/-- `ConsoleHandler`: base indentation, pending unopened groups, buffered
prefix text from earlier attachments, and opaque identities for the shared
output sink and mutex. -/
structure Handler where
  level : Level
  indent : Nat
  unopenedGroups : List String
  preBuf : String
  w : Nat
  mu : Nat

/-- `NewConsoleHandler`: base indentation level 1; the minimum severity
defaults to `LevelInfo` when no options or no level are supplied.  `w` and
`mu` are the opaque identities of the supplied sink and the freshly
allocated mutex. -/
def NewConsoleHandler (w mu : Nat) (opts : Option HandlerOptions) : Handler :=
  { w := w
    mu := mu
    indent := 1
    unopenedGroups := []
    preBuf := ""
    level :=
      match opts with
      | none => LevelInfo
      | some o => o.level.getD LevelInfo }

/-- `Enabled`: whether the handler processes records of severity `level`. -/
def Enabled (h : Handler) (level : Level) : Bool := h.level ≤ level

/-- `appendUnopenedGroups`: flush pending group headers, one per line, each
one indentation level deeper than the previous. -/
def appendUnopenedGroupsStr : List String → Nat → String
  | [], _ => ""
  | g :: gs, indent =>
    getIndent indent ++ colorize ansiDarkGray (g ++ ":\n")
      ++ appendUnopenedGroupsStr gs (indent + 1)

/-- `WithAttrs`: identity on an empty attribute list; otherwise a copy of
the handler with pending groups flushed into the buffered prefix, the base
indentation advanced by the number of flushed groups, the unopened-group
list cleared, and the new attributes rendered at the new base indentation. -/
def WithAttrs (h : Handler) (attrs : AttrList) : Except String Handler :=
  if isNilAL attrs then .ok h
  else
    let pre2 := h.preBuf ++ appendUnopenedGroupsStr h.unopenedGroups h.indent
    let indent2 := h.indent + h.unopenedGroups.length
    match appendAttrList attrs indent2 with
    | .error e => .error e
    | .ok s =>
      .ok { h with preBuf := pre2 ++ s, indent := indent2, unopenedGroups := [] }

/-- `WithGroup`: identity on the empty name; otherwise a copy of the handler
with the name appended to a clone of the unopened-group list. -/
def WithGroup (h : Handler) (name : String) : Handler :=
  if name = "" then h
  else { h with unopenedGroups := h.unopenedGroups ++ [name] }

/-! ### Records and `Handle` -/

/-- A log record: `hasTime` is `!r.Time.IsZero()`, `timeText` is the
already-formatted `[15:04:05.000]` timestamp text. -/
structure Record where
  hasTime : Bool
  timeText : String
  level : Level
  message : String
  attrs : AttrList

/-- The header: optional muted timestamp, colorized severity label with a
colon, and the message in the foreground color, ending the line. -/
def headerText (r : Record) : String :=
  (if r.hasTime then colorize ansiLightGray r.timeText ++ " " else "")
    ++ colorize (levelColor r.level) (levelString r.level ++ ":") ++ " "
    ++ colorize ansiWhite r.message ++ "\n"

/-- `Handle`: assemble header, buffered prefix, and (only when the record
carries attributes) the flushed group headers followed by the record
attributes rendered at `base indentation + number of pending groups`.
The `.ok` payload is the single string written to the sink; `.error` is
the marshaling panic, in which case nothing is written. -/
def Handle (h : Handler) (r : Record) : Except String String :=
  if isNilAL r.attrs then .ok (headerText r ++ h.preBuf)
  else
    match appendAttrList r.attrs (h.indent + h.unopenedGroups.length) with
    | .error e => .error e
    | .ok s =>
      .ok (headerText r ++ h.preBuf
        ++ appendUnopenedGroupsStr h.unopenedGroups h.indent ++ s)

/-! ### Output analysis: ANSI stripping, line splitting, leading spaces.
These mirror the inspection the repository's tests perform (`uncolorize`
and the indentation check of `parseLogLines`); they are analysis tools,
not part of the renderer. -/

/-- Drop characters up to and including the first `'m'` (the end of an
ANSI escape sequence). -/
def dropThroughM : List Char → List Char
  | [] => []
  | c :: rest => if c = 'm' then rest else dropThroughM rest

/-- Fuel-driven ANSI stripping: an escape character starts a color code,
which extends through the next `'m'`. -/
def stripAnsiGo : Nat → List Char → List Char
  | 0, _ => []
  | _ + 1, [] => []
  | fuel + 1, c :: rest =>
    if c = '\x1b' then stripAnsiGo fuel (dropThroughM rest)
    else c :: stripAnsiGo fuel rest

/-- Remove all ANSI color codes (the tests' `uncolorize`). -/
def stripAnsi (l : List Char) : List Char := stripAnsiGo l.length l

def splitLinesAux : List Char → List Char → List (List Char)
  | [], acc => [acc.reverse]
  | c :: rest, acc =>
    if c = '\n' then acc.reverse :: splitLinesAux rest []
    else splitLinesAux rest (c :: acc)

/-- Split a character stream into its newline-separated lines. -/
def splitLines (l : List Char) : List (List Char) := splitLinesAux l []

/-- The number of leading space characters of a line. -/
def leadingSpacesCL : List Char → Nat
  | [] => 0
  | c :: rest => if c = ' ' then leadingSpacesCL rest + 1 else 0

/-- The per-line leading-space counts of a rendered string, after
stripping color codes. -/
def lineIndents (s : String) : List Nat :=
  (splitLines (stripAnsi s.data)).map leadingSpacesCL

/-! ### The line-level view of rendered output.
A `Line` is an indentation level paired with the visible body of the line;
`lineFlat` recovers the character stream (each level is two spaces).  The
equivalence theorems below prove that stripping the color codes from the
string renderer's output yields exactly `lineFlat` of the line-level view. -/

abbrev Line := Nat × List Char

def lineFlat (ls : List Line) : List Char :=
  (ls.map fun nb => List.replicate (2 * nb.1) ' ' ++ nb.2 ++ ['\n']).flatten

/-- A clean visible segment: no raw newline, no raw escape character, and
not beginning with a space (so the segment never extends a line's leading
whitespace). -/
def CleanSeg (b : List Char) : Prop :=
  '\n' ∉ b ∧ '\x1b' ∉ b ∧ b.head? ≠ some ' '

/-- A pretty-printed JSON block: the segment that continues the current
line, plus the block's own continuation lines. -/
abbrev JBlock := List Char × List Line

/-- The character stream of a block (no trailing newline). -/
def blockText (b : JBlock) : List Char :=
  b.1 ++ (b.2.map fun nb => '\n' :: (List.replicate (2 * nb.1) ' ' ++ nb.2)).flatten

/-- Append text to the body of the last line. -/
def extLast : List Line → List Char → List Line
  | [], _ => []
  | [nb], t => [(nb.1, nb.2 ++ t)]
  | nb :: rest, t => nb :: extLast rest t

/-- Block concatenation (mirrors plain text concatenation). -/
def bapp : JBlock → JBlock → JBlock
  | (f1, []), (f2, ls2) => (f1 ++ f2, ls2)
  | (f1, nb :: ls1), (f2, ls2) => (f1, extLast (nb :: ls1) f2 ++ ls2)

/-- A newline followed by indentation to level `lv`, then the block `b`. -/
def bnl (lv : Nat) (b : JBlock) : JBlock := ([], (lv, b.1) :: b.2)

mutual

/-- Line-level mirror of `encJ`: the encoding of a JSON value whose lines
are indented at absolute level `lv` (prefix level plus depth). -/
def encJLines (lv : Nat) : JVal → JBlock
  | .scalar tok => (tok.data, [])
  | .arr es =>
    if isNilJL es then ("[]".data, [])
    else bapp (bapp ("[".data, []) (bnl (lv + 1) (encJArrLines (lv + 1) es)))
      (bnl lv ("]".data, []))
  | .obj fs =>
    if isNilJF fs then ("\x7b\x7d".data, [])
    else bapp (bapp ("\x7b".data, []) (bnl (lv + 1) (encJObjLines (lv + 1) fs)))
      (bnl lv ("\x7d".data, []))

def encJArrLines (lv : Nat) : JList → JBlock
  | .nil => ([], [])
  | .cons j rest =>
    bapp (encJLines lv j)
      (if isNilJL rest then ([], [])
       else bapp (",".data, []) (bnl lv (encJArrLines lv rest)))

def encJObjLines (lv : Nat) : JFields → JBlock
  | .nil => ([], [])
  | .cons k j rest =>
    bapp (("\"" ++ k ++ "\": ").data, [])
      (bapp (encJLines lv j)
        (if isNilJF rest then ([], [])
         else bapp (",".data, []) (bnl lv (encJObjLines lv rest))))

end

mutual

/-- Line-level mirror of `appendAttr`. -/
def attrLines (a : Attr) (indent : Nat) : Except String (List Line) :=
  match a with
  | .mk key v =>
    if key == "" && isVNil v then .ok []
    else
      match v with
      | .group gs =>
        if isNilAL gs then .ok []
        else if key == "" then attrLinesList gs indent
        else
          match attrLinesList gs (indent + 1) with
          | .error e => .error e
          | .ok inner => .ok ((indent, (key ++ ":").data) :: inner)
      | .str s => .ok [(indent, (normalizeKey key ++ ": \"" ++ s ++ "\"").data)]
      | .vnil => .ok [(indent, (normalizeKey key ++ ": null").data)]
      | .other ov =>
        match ov with
        | .bad err => .error ("log marshaling error: " ++ err)
        | .enc j =>
          let b := encJLines indent j
          .ok ((indent, (normalizeKey key ++ ": ").data ++ b.1) :: b.2)

/-- Line-level mirror of `appendAttrList`. -/
def attrLinesList (l : AttrList) (indent : Nat) : Except String (List Line) :=
  match l with
  | .anil => .ok []
  | .acons a rest =>
    match attrLines a indent with
    | .error e => .error e
    | .ok s =>
      match attrLinesList rest indent with
      | .error e => .error e
      | .ok t => .ok (s ++ t)

end

/-- Line-level mirror of `appendUnopenedGroups`. -/
def groupLines : List String → Nat → List Line
  | [], _ => []
  | g :: gs, n => (n, (g ++ ":").data) :: groupLines gs (n + 1)

/-- The visible text of the header line. -/
def headerLine (r : Record) : Line :=
  (0, ((if r.hasTime then r.timeText ++ " " else "")
    ++ levelString r.level ++ ": " ++ r.message).data)

/-! ### Hygiene predicates.
User-supplied text is *clean* when it carries no raw newline and no raw
escape character, so that physical lines of the output correspond to the
lines the renderer emits and color stripping removes exactly the
renderer's own codes.  Keys additionally must not begin with a space
(a key beginning with a space visibly extends the line's indentation). -/

def strCleanB (s : String) : Bool :=
  !s.data.contains '\n' && !s.data.contains '\x1b'

def keyCleanB (s : String) : Bool := strCleanB s && s.data.head? != some ' '

mutual

def jGood : JVal → Bool
  | .scalar tok => keyCleanB tok
  | .arr es => jlGood es
  | .obj fs => jfGood fs

def jlGood : JList → Bool
  | .nil => true
  | .cons j rest => jGood j && jlGood rest

def jfGood : JFields → Bool
  | .nil => true
  | .cons k j rest => strCleanB k && jGood j && jfGood rest

end

mutual

def attrGood : Attr → Bool
  | .mk k v => keyCleanB k && valGood v

def valGood : AttrVal → Bool
  | .str s => strCleanB s
  | .vnil => true
  | .other (.enc j) => jGood j
  | .other (.bad _) => true
  | .group gs => alGood gs

def alGood : AttrList → Bool
  | .anil => true
  | .acons a rest => attrGood a && alGood rest

end

/-- A usable group name: nonempty (`WithGroup` ignores empty names) and clean. -/
def nameCleanB (g : String) : Bool := g != "" && keyCleanB g

/-- A clean record: timestamp text (nonempty when a timestamp is present,
as the fixed bracketed format always is), message and every attribute clean. -/
def recordGood (r : Record) : Bool :=
  keyCleanB r.timeText && (!r.hasTime || r.timeText != "")
    && strCleanB r.message && alGood r.attrs

/-- Handlers reachable from `NewConsoleHandler` through the two
transformations, applied to clean arguments. -/
inductive Built : Handler → Prop where
  | fresh (w mu : Nat) (opts : Option HandlerOptions) :
      Built (NewConsoleHandler w mu opts)
  | grp {h : Handler} (name : String) : Built h → keyCleanB name = true →
      Built (WithGroup h name)
  | attrs {h h2 : Handler} (as : AttrList) : Built h → alGood as = true →
      WithAttrs h as = .ok h2 → Built h2

/-- Relation between a string-level render result and its line-level view:
identical panics, or a success whose stripped text flattens the (clean)
lines. -/
def ExceptRel (x : Except String String) (y : Except String (List Line)) : Prop :=
  match x, y with
  | .error e, .error e2 => e = e2
  | .ok s, .ok ls =>
    (∀ nb ∈ ls, CleanSeg nb.2)
      ∧ ∀ X, stripAnsi (s.data ++ X) = lineFlat ls ++ stripAnsi X
  | _, _ => False

/-- The line-level view of a successful `Handle` call: the header line,
then the buffered-prefix lines, and — only when the record carries
attributes — the flushed group headers and the attribute lines. -/
def handleLines (r : Record) (pls : List Line) (gs : List String)
    (indent : Nat) (als : List Line) : List Line :=
  if isNilAL r.attrs then headerLine r :: pls
  else headerLine r :: (pls ++ groupLines gs indent ++ als)

/-- Whether an attribute list contains, at top level, an attribute of
"other" kind whose value the encoder rejects. -/
def hasBad : AttrList → Bool
  | .anil => false
  | .acons (.mk _ (.other (.bad _))) _ => true
  | .acons _ rest => hasBad rest

/-- The color constants all strip to nothing. -/
def StripsAway (code : String) : Prop :=
  ∀ X : List Char, stripAnsi (code.data ++ X) = stripAnsi X

/-- The continuation-line part of a block's text. -/
def tailText (ls : List Line) : List Char :=
  (ls.map fun nb => '\n' :: (List.replicate (2 * nb.1) ' ' ++ nb.2)).flatten

/-- All continuation lines of a block are clean, and so is its first segment. -/
def BlockClean (b : JBlock) : Prop :=
  CleanSeg b.1 ∧ ∀ nb ∈ b.2, CleanSeg nb.2

/-- The alphabet every severity label is drawn from. -/
def levelAlphabet : List Char := "DEBUGINFOWARNERROR+-0123456789".data

instance (b : List Char) : Decidable (CleanSeg b) := by
  unfold CleanSeg
  infer_instance

/-! ### Spec-side formulations and test scenarios -/

/-- The group-header flush described positionally: for each pending group
`names[i]`, one header line at indentation `base + i`. -/
def groupHeaderEnum (names : List String) (base : Nat) : String :=
  String.join ((List.range names.length).map fun i =>
    getIndent (base + i) ++ colorize ansiDarkGray (names.getD i "" ++ ":\n"))

/-- Per-attribute rendering at one fixed indentation: the list of each
attribute's own rendered text. -/
def renderEach : AttrList → Nat → Except String (List String)
  | .anil, _ => .ok []
  | .acons a rest, n =>
    match appendAttr a n with
    | .error e => .error e
    | .ok s =>
      match renderEach rest n with
      | .error e => .error e
      | .ok ss => .ok (s :: ss)

/-- The 35 nested group names of the deep-nesting scenario. -/
def demoGroups : List String := (List.range 35).map fun i => "g" ++ natRepr i

/-- A handler nested under 35 groups (beyond the cache bound of 30). -/
def h35 : Handler := demoGroups.foldl WithGroup (NewConsoleHandler 0 0 none)

/-- The record of the deep-nesting scenario: one string attribute. -/
def r35 : Record :=
  { hasTime := false, timeText := "", level := 0, message := "indent test"
    attrs := .acons (.mk "key" (.str "value")) .anil }

/-- A record whose string value embeds a raw newline followed by one space. -/
def rBadNL : Record :=
  { hasTime := false, timeText := "", level := 0, message := "m"
    attrs := .acons (.mk "k" (.str "x\n y")) .anil }

/-- A small clean demonstration record. -/
def demoRecord : Record :=
  { hasTime := false, timeText := "", level := 0, message := "m"
    attrs := .acons (.mk "k" (.str "v")) .anil }

/-! ### Basic lemmas: strings, ANSI stripping, line flattening -/

theorem data_append (s t : String) : (s ++ t).data = s.data ++ t.data :=
  String.data_append s t

theorem dropThroughM_length : ∀ l : List Char, (dropThroughM l).length ≤ l.length := by
  intro l
  induction l with
  | nil => simp [dropThroughM]
  | cons c rest ih =>
    simp only [dropThroughM]
    split
    · simp
    · exact Nat.le_succ_of_le ih

theorem stripAnsiGo_fuel : ∀ f1 f2 (l : List Char), l.length ≤ f1 → l.length ≤ f2 →
    stripAnsiGo f1 l = stripAnsiGo f2 l := by
  intro f1
  induction f1 with
  | zero =>
    intro f2 l h1 _
    have : l = [] := List.eq_nil_of_length_eq_zero (Nat.le_zero.mp h1)
    subst this
    cases f2 <;> rfl
  | succ f1 ih =>
    intro f2 l h1 h2
    cases l with
    | nil => cases f2 <;> rfl
    | cons c rest =>
      cases f2 with
      | zero => simp at h2
      | succ f2 =>
        simp only [stripAnsiGo]
        have hr : rest.length ≤ f1 := by simpa using h1
        have hr2 : rest.length ≤ f2 := by simpa using h2
        split
        · exact ih f2 (dropThroughM rest)
            (Nat.le_trans (dropThroughM_length rest) hr)
            (Nat.le_trans (dropThroughM_length rest) hr2)
        · rw [ih f2 rest hr hr2]

@[simp] theorem stripAnsi_nil : stripAnsi [] = [] := rfl

theorem stripAnsi_cons {c : Char} (h : c ≠ '\x1b') (l : List Char) :
    stripAnsi (c :: l) = c :: stripAnsi l := by
  simp only [stripAnsi, List.length_cons, stripAnsiGo, if_neg h]

theorem stripAnsi_esc (l : List Char) :
    stripAnsi ('\x1b' :: l) = stripAnsi (dropThroughM l) := by
  simp only [stripAnsi, List.length_cons, stripAnsiGo, if_pos rfl]
  exact stripAnsiGo_fuel l.length (dropThroughM l).length (dropThroughM l)
    (dropThroughM_length l) (Nat.le_refl _)

theorem stripAnsi_clean_append {a : List Char} (h : '\x1b' ∉ a) (X : List Char) :
    stripAnsi (a ++ X) = a ++ stripAnsi X := by
  induction a with
  | nil => simp
  | cons c rest ih =>
    have hc : c ≠ '\x1b' := fun hc => h (hc ▸ List.mem_cons_self c rest)
    have hrest : '\x1b' ∉ rest := fun hm => h (List.mem_cons_of_mem c hm)
    simpa [stripAnsi_cons hc] using ih hrest

theorem stripAnsi_code5 (c1 c2 : Char) (h1 : c1 ≠ 'm') (h2 : c2 ≠ 'm') (X : List Char) :
    stripAnsi ('\x1b' :: '[' :: c1 :: c2 :: 'm' :: X) = stripAnsi X := by
  rw [stripAnsi_esc]
  simp [dropThroughM, h1, h2]

theorem stripAnsi_code4 (c1 : Char) (h1 : c1 ≠ 'm') (X : List Char) :
    stripAnsi ('\x1b' :: '[' :: c1 :: 'm' :: X) = stripAnsi X := by
  rw [stripAnsi_esc]
  simp [dropThroughM, h1]

theorem stripAnsi_reset (X : List Char) :
    stripAnsi (ansiReset.data ++ X) = stripAnsi X := by
  show stripAnsi ('\x1b' :: '[' :: '0' :: 'm' :: X) = stripAnsi X
  exact stripAnsi_code4 '0' (by decide) X

theorem strips_cyan : StripsAway ansiCyan := fun X =>
  stripAnsi_code5 '3' '6' (by decide) (by decide) X

theorem strips_lightGray : StripsAway ansiLightGray := fun X =>
  stripAnsi_code5 '3' '7' (by decide) (by decide) X

theorem strips_darkGray : StripsAway ansiDarkGray := fun X =>
  stripAnsi_code5 '9' '0' (by decide) (by decide) X

theorem strips_lightRed : StripsAway ansiLightRed := fun X =>
  stripAnsi_code5 '9' '1' (by decide) (by decide) X

theorem strips_lightYellow : StripsAway ansiLightYellow := fun X =>
  stripAnsi_code5 '9' '3' (by decide) (by decide) X

theorem strips_lightBlue : StripsAway ansiLightBlue := fun X =>
  stripAnsi_code5 '9' '4' (by decide) (by decide) X

theorem strips_lightMagenta : StripsAway ansiLightMagenta := fun X =>
  stripAnsi_code5 '9' '5' (by decide) (by decide) X

theorem strips_white : StripsAway ansiWhite := fun X =>
  stripAnsi_code5 '9' '7' (by decide) (by decide) X

theorem strips_levelColor (l : Level) : StripsAway (levelColor l) := by
  unfold levelColor
  split
  · exact strips_lightGray
  split
  · exact strips_cyan
  split
  · exact strips_lightBlue
  split
  · exact strips_lightYellow
  split
  · exact strips_lightRed
  · exact strips_lightMagenta

/-- Stripping `colorize code v ++ X` yields the visible text `v` followed by
the stripped remainder, whenever `v` holds no raw escape character. -/
theorem stripAnsi_colorize {code : String} (hc : StripsAway code) {v : String}
    (hv : '\x1b' ∉ v.data) (X : List Char) :
    stripAnsi ((colorize code v).data ++ X) = v.data ++ stripAnsi X := by
  have : (colorize code v).data ++ X
      = code.data ++ (v.data ++ (ansiReset.data ++ X)) := by
    simp [colorize, data_append]
  rw [this, hc, stripAnsi_clean_append hv, stripAnsi_reset]

/-! ### Line flattening and block lemmas -/

@[simp] theorem lineFlat_nil : lineFlat [] = [] := rfl

theorem lineFlat_cons (nb : Line) (ls : List Line) :
    lineFlat (nb :: ls)
      = List.replicate (2 * nb.1) ' ' ++ nb.2 ++ '\n' :: lineFlat ls := by
  simp [lineFlat]

theorem lineFlat_append (l1 l2 : List Line) :
    lineFlat (l1 ++ l2) = lineFlat l1 ++ lineFlat l2 := by
  simp [lineFlat]

@[simp] theorem tailText_nil : tailText [] = [] := rfl

theorem tailText_cons (nb : Line) (ls : List Line) :
    tailText (nb :: ls)
      = '\n' :: (List.replicate (2 * nb.1) ' ' ++ nb.2) ++ tailText ls := by
  simp [tailText]

theorem tailText_append (l1 l2 : List Line) :
    tailText (l1 ++ l2) = tailText l1 ++ tailText l2 := by
  simp [tailText]

theorem blockText_eq (b : JBlock) : blockText b = b.1 ++ tailText b.2 := rfl

theorem extLast_tailText : ∀ (ls : List Line) (t : List Char), ls ≠ [] →
    tailText (extLast ls t) = tailText ls ++ t := by
  intro ls
  induction ls with
  | nil => intro t h; exact absurd rfl h
  | cons nb rest ih =>
    intro t _
    cases rest with
    | nil => simp [extLast, tailText]
    | cons nb2 rest2 =>
      have := ih t (by simp)
      simp only [extLast, tailText_cons, this, tailText_cons]
      simp

theorem blockText_bapp (b1 b2 : JBlock) :
    blockText (bapp b1 b2) = blockText b1 ++ blockText b2 := by
  obtain ⟨f1, ls1⟩ := b1
  obtain ⟨f2, ls2⟩ := b2
  cases ls1 with
  | nil => simp [bapp, blockText_eq]
  | cons nb rest =>
    simp only [bapp, blockText_eq, tailText_append,
      extLast_tailText (nb :: rest) f2 (by simp)]
    simp

theorem blockText_bnl (lv : Nat) (b : JBlock) :
    blockText (bnl lv b)
      = '\n' :: (List.replicate (2 * lv) ' ' ++ blockText b) := by
  simp [bnl, blockText_eq, tailText_cons]

theorem cleanSeg_nil : CleanSeg [] := by
  refine ⟨by simp, by simp, by simp⟩

theorem cleanSeg_append {b t : List Char} (hb : CleanSeg b)
    (ht1 : '\n' ∉ t) (ht2 : '\x1b' ∉ t) (ht3 : t.head? ≠ some ' ') :
    CleanSeg (b ++ t) := by
  obtain ⟨h1, h2, h3⟩ := hb
  refine ⟨by simp [h1, ht1], by simp [h2, ht2], ?_⟩
  cases b with
  | nil => simpa using ht3
  | cons c rest => simpa using h3

theorem extLast_clean : ∀ (ls : List Line) {t : List Char},
    (∀ nb ∈ ls, CleanSeg nb.2) →
    '\n' ∉ t → '\x1b' ∉ t → t.head? ≠ some ' ' →
    ∀ nb ∈ extLast ls t, CleanSeg nb.2 := by
  intro ls
  induction ls with
  | nil => intro t _ _ _ _; simp [extLast]
  | cons hd tl ih =>
    intro t hls ht1 ht2 ht3
    cases tl with
    | nil =>
      intro x hx
      simp only [extLast, List.mem_singleton] at hx
      subst hx
      exact cleanSeg_append (hls hd (by simp)) ht1 ht2 ht3
    | cons hd2 tl2 =>
      intro x hx
      simp only [extLast, List.mem_cons] at hx
      rcases hx with h | h
      · rw [h]; exact hls hd (by simp)
      · exact ih (fun y hy => hls y (List.mem_cons_of_mem hd hy)) ht1 ht2 ht3 x
          (by simpa [List.mem_cons] using h)

theorem blockClean_bapp {b1 b2 : JBlock} (h1 : BlockClean b1) (h2 : BlockClean b2) :
    BlockClean (bapp b1 b2) := by
  obtain ⟨f1, ls1⟩ := b1
  obtain ⟨f2, ls2⟩ := b2
  obtain ⟨hf1, hls1⟩ := h1
  obtain ⟨hf2, hls2⟩ := h2
  obtain ⟨hf2a, hf2b, hf2c⟩ := hf2
  cases ls1 with
  | nil =>
    exact ⟨cleanSeg_append hf1 hf2a hf2b hf2c, hls2⟩
  | cons nb rest =>
    refine ⟨hf1, ?_⟩
    intro x hx
    rcases List.mem_append.mp hx with h | h
    · exact extLast_clean (nb :: rest) hls1 hf2a hf2b hf2c x h
    · exact hls2 x h

theorem blockClean_bnl {b : JBlock} (lv : Nat) (h : BlockClean b) :
    BlockClean (bnl lv b) := by
  obtain ⟨hf, hls⟩ := h
  refine ⟨cleanSeg_nil, ?_⟩
  intro x hx
  simp only [bnl, List.mem_cons] at hx
  rcases hx with h | h
  · subst h; exact hf
  · exact hls x h

/-! ### Splitting flattened lines -/

theorem splitLinesAux_through {body : List Char} (h : '\n' ∉ body) :
    ∀ (acc rest : List Char),
      splitLinesAux (body ++ '\n' :: rest) acc
        = (acc.reverse ++ body) :: splitLines rest := by
  induction body with
  | nil => intro acc rest; simp [splitLinesAux, splitLines]
  | cons c body ih =>
    intro acc rest
    have hc : c ≠ '\n' := fun hc => h (hc ▸ List.mem_cons_self c body)
    have hb : '\n' ∉ body := fun hm => h (List.mem_cons_of_mem c hm)
    have hstep : (c :: body) ++ '\n' :: rest = c :: (body ++ '\n' :: rest) := rfl
    rw [hstep]
    show splitLinesAux (c :: (body ++ '\n' :: rest)) acc = _
    simp only [splitLinesAux, if_neg hc]
    rw [ih hb]
    simp

theorem splitLines_lineFlat : ∀ {ls : List Line},
    (∀ nb ∈ ls, '\n' ∉ nb.2) →
    splitLines (lineFlat ls)
      = (ls.map fun nb => List.replicate (2 * nb.1) ' ' ++ nb.2) ++ [[]] := by
  intro ls
  induction ls with
  | nil => intro _; rfl
  | cons nb rest ih =>
    intro h
    have hnb : '\n' ∉ nb.2 := h nb (by simp)
    have hbody : '\n' ∉ List.replicate (2 * nb.1) ' ' ++ nb.2 := by
      intro hm
      rcases List.mem_append.mp hm with hm | hm
      · exact absurd (List.eq_of_mem_replicate hm) (by decide)
      · exact hnb hm
    rw [lineFlat_cons]
    show splitLinesAux ((List.replicate (2 * nb.1) ' ' ++ nb.2) ++ '\n' :: lineFlat rest) []
      = _
    rw [splitLinesAux_through hbody]
    rw [ih (fun y hy => h y (List.mem_cons_of_mem nb hy))]
    simp

theorem leadingSpaces_replicate {b : List Char} (hb : b.head? ≠ some ' ') :
    ∀ m, leadingSpacesCL (List.replicate m ' ' ++ b) = m := by
  intro m
  induction m with
  | zero =>
    cases b with
    | nil => rfl
    | cons c rest =>
      have : c ≠ ' ' := by simpa using hb
      simp [leadingSpacesCL, this]
  | succ m ih =>
    have hstep : List.replicate (m + 1) ' ' ++ b = ' ' :: (List.replicate m ' ' ++ b) := by
      simp [List.replicate_succ]
    rw [hstep]
    simp [leadingSpacesCL, ih]

/-- From a line-level decomposition of the stripped output, the per-line
leading-space counts are exactly twice the levels, with a trailing zero for
the empty segment after the final newline. -/
theorem lineIndents_of_lineFlat {s : String} {ls : List Line}
    (hclean : ∀ nb ∈ ls, CleanSeg nb.2)
    (h : stripAnsi s.data = lineFlat ls) :
    lineIndents s = (ls.map fun nb => 2 * nb.1) ++ [0] := by
  unfold lineIndents
  rw [h, splitLines_lineFlat (fun nb hnb => (hclean nb hnb).1)]
  rw [List.map_append, List.map_map]
  congr 1
  apply List.map_congr_left
  intro nb hnb
  exact leadingSpaces_replicate (hclean nb hnb).2.2 (2 * nb.1)

/-! ### Hygiene of the severity label text -/

theorem digitChar_mem (d : Nat) : digitChar d ∈ "0123456789".data := by
  unfold digitChar List.getD
  cases h : "0123456789".data.get? (d % 10) with
  | none => simp
  | some c =>
    have := List.get?_mem h
    simpa using this

theorem natDigitsGo_mem : ∀ (fuel n : Nat) (c : Char), c ∈ natDigitsGo fuel n →
    c ∈ "0123456789".data := by
  intro fuel
  induction fuel with
  | zero => intro n c h; simp [natDigitsGo] at h
  | succ fuel ih =>
    intro n c h
    simp only [natDigitsGo] at h
    split at h
    · simp only [List.mem_singleton] at h
      exact h ▸ digitChar_mem n
    · rcases List.mem_append.mp h with h | h
      · exact ih (n / 10) c h
      · simp only [List.mem_singleton] at h
        exact h ▸ digitChar_mem (n % 10)

theorem digits_sub_alphabet : ∀ c ∈ "0123456789".data, c ∈ levelAlphabet := by decide

theorem alphabet_ok : ∀ c ∈ levelAlphabet, c ≠ '\n' ∧ c ≠ '\x1b' := by decide

theorem natRepr_mem {n : Nat} {c : Char} (h : c ∈ (natRepr n).data) :
    c ∈ levelAlphabet :=
  digits_sub_alphabet c (natDigitsGo_mem (n + 1) n c h)

theorem intSigned_mem {v : Int} {c : Char} (h : c ∈ (intSigned v).data) :
    c ∈ levelAlphabet := by
  unfold intSigned at h
  split at h <;> rw [data_append] at h <;> rcases List.mem_append.mp h with h | h
  · have : c = '-' := by simpa using h
    rw [this]; decide
  · exact natRepr_mem h
  · have : c = '+' := by simpa using h
    rw [this]; decide
  · exact natRepr_mem h

theorem levelStr_mem {base : String} {v : Int} {c : Char}
    (hbase : ∀ x ∈ base.data, x ∈ levelAlphabet)
    (h : c ∈ (levelStr base v).data) : c ∈ levelAlphabet := by
  unfold levelStr at h
  split at h
  · exact hbase c h
  · rw [data_append] at h
    rcases List.mem_append.mp h with h | h
    · exact hbase c h
    · exact intSigned_mem h

theorem levelString_mem {l : Level} {c : Char} (h : c ∈ (levelString l).data) :
    c ∈ levelAlphabet := by
  unfold levelString at h
  split at h
  · exact levelStr_mem (by decide) h
  split at h
  · exact levelStr_mem (by decide) h
  split at h
  · exact levelStr_mem (by decide) h
  · exact levelStr_mem (by decide) h

theorem levelString_head (l : Level) :
    ∃ c, (levelString l).data.head? = some c ∧ c ≠ ' ' := by
  have hbase : ∀ base : String, base.data ≠ [] →
      ∀ v, (levelStr base v).data.head? = base.data.head? := by
    intro base hne v
    unfold levelStr
    split
    · rfl
    · rw [data_append]
      cases hb : base.data with
      | nil => exact absurd hb hne
      | cons x xs => simp [hb]
  unfold levelString
  split
  · exact ⟨'D', by rw [hbase "DEBUG" (by decide)]; rfl, by decide⟩
  split
  · exact ⟨'I', by rw [hbase "INFO" (by decide)]; rfl, by decide⟩
  split
  · exact ⟨'W', by rw [hbase "WARN" (by decide)]; rfl, by decide⟩
  · exact ⟨'E', by rw [hbase "ERROR" (by decide)]; rfl, by decide⟩

theorem levelString_clean (l : Level) : CleanSeg (levelString l).data := by
  obtain ⟨c, hc, hcs⟩ := levelString_head l
  refine ⟨?_, ?_, ?_⟩
  · intro h
    exact absurd rfl (alphabet_ok _ (levelString_mem h)).1
  · intro h
    exact absurd rfl (alphabet_ok _ (levelString_mem h)).2
  · rw [hc]
    simpa using hcs

/-! ### Bool-to-Prop bridges for the hygiene predicates -/

theorem strClean_spec {s : String} (h : strCleanB s = true) :
    '\n' ∉ s.data ∧ '\x1b' ∉ s.data := by
  unfold strCleanB at h
  rw [Bool.and_eq_true] at h
  constructor
  · intro hm
    have hc : s.data.contains '\n' = true := by simpa using hm
    rw [hc] at h
    simp at h
  · intro hm
    have hc : s.data.contains '\x1b' = true := by simpa using hm
    rw [hc] at h
    simp at h

theorem keyClean_spec {s : String} (h : keyCleanB s = true) : CleanSeg s.data := by
  unfold keyCleanB at h
  rw [Bool.and_eq_true] at h
  obtain ⟨h1, h2⟩ := strClean_spec h.1
  refine ⟨h1, h2, ?_⟩
  have := h.2
  simpa using this

theorem quotedKey_clean {k : String} (h : strCleanB k = true) :
    CleanSeg ("\"" ++ k ++ "\": ").data := by
  obtain ⟨h1, h2⟩ := strClean_spec h
  refine ⟨?_, ?_, ?_⟩
  · intro hm
    simp only [data_append, List.mem_append] at hm
    rcases hm with (hm | hm) | hm
    · simp at hm
    · exact h1 hm
    · simp at hm
  · intro hm
    simp only [data_append, List.mem_append] at hm
    rcases hm with (hm | hm) | hm
    · simp at hm
    · exact h2 hm
    · simp at hm
  · simp [data_append]

/-! ### Equivalence of `encJ` with its line-level mirror -/

theorem jIndent_data (d : Nat) : (jIndent d).data = List.replicate (2 * d) ' ' := rfl

theorem blockText_single (f : List Char) : blockText (f, []) = f := by
  simp [blockText_eq]

theorem replicate_merge (a b : Nat) (X : List Char) :
    List.replicate (2 * a) ' ' ++ (List.replicate (2 * b) ' ' ++ X)
      = List.replicate (2 * (a + b)) ' ' ++ X := by
  rw [← List.append_assoc, ← List.replicate_add]
  congr 2
  ring

mutual

theorem encJ_spec : ∀ (np d : Nat) (p : String), p.data = List.replicate (2 * np) ' ' →
    ∀ v : JVal, jGood v = true →
    (encJ p d v).data = blockText (encJLines (np + d) v)
      ∧ BlockClean (encJLines (np + d) v) := by
  intro np d p hp v hv
  match v with
  | .scalar tok =>
    refine ⟨by simp [encJ, encJLines, blockText_single], ?_, by simp [encJLines]⟩
    show CleanSeg tok.data
    exact keyClean_spec (by simpa [jGood] using hv)
  | .arr es =>
    cases hnil : isNilJL es with
    | true =>
      match es, hnil with
      | .nil, _ =>
        refine ⟨by simp [encJ, encJLines, isNilJL, blockText_single], ?_, ?_⟩
        · show CleanSeg ("[]".data)
          decide
        · show ∀ nb ∈ ([] : List Line), CleanSeg nb.2
          simp
    | false =>
      obtain ⟨hA, hAc⟩ := encJArr_spec np (d + 1) p hp es (by simpa [jGood] using hv) hnil
      have e1 : encJ p d (.arr es)
          = "[\n" ++ encJArr p (d + 1) es ++ "\n" ++ p ++ jIndent d ++ "]" := by
        simp [encJ, hnil]
      have e2 : encJLines (np + d) (.arr es)
          = bapp (bapp ("[".data, []) (bnl (np + d + 1) (encJArrLines (np + d + 1) es)))
              (bnl (np + d) ("]".data, [])) := by
        simp [encJLines, hnil]
      constructor
      · rw [e1, e2]
        simp only [blockText_bapp, blockText_bnl, blockText_single, data_append,
          jIndent_data, hp, hA]
        simp only [List.append_assoc, List.cons_append, List.nil_append]
        rw [replicate_merge np d]
        rfl
      · rw [e2]
        exact blockClean_bapp
          (blockClean_bapp ⟨by decide, by simp⟩ (blockClean_bnl _ hAc))
          (blockClean_bnl _ ⟨by decide, by simp⟩)
  | .obj fs =>
    cases hnil : isNilJF fs with
    | true =>
      match fs, hnil with
      | .nil, _ =>
        refine ⟨by simp [encJ, encJLines, isNilJF, blockText_single], ?_, ?_⟩
        · show CleanSeg ("\x7b\x7d".data)
          decide
        · show ∀ nb ∈ ([] : List Line), CleanSeg nb.2
          simp
    | false =>
      obtain ⟨hA, hAc⟩ := encJObj_spec np (d + 1) p hp fs (by simpa [jGood] using hv) hnil
      have e1 : encJ p d (.obj fs)
          = "\x7b\n" ++ encJObj p (d + 1) fs ++ "\n" ++ p ++ jIndent d ++ "\x7d" := by
        simp [encJ, hnil]
      have e2 : encJLines (np + d) (.obj fs)
          = bapp (bapp ("\x7b".data, []) (bnl (np + d + 1) (encJObjLines (np + d + 1) fs)))
              (bnl (np + d) ("\x7d".data, [])) := by
        simp [encJLines, hnil]
      constructor
      · rw [e1, e2]
        simp only [blockText_bapp, blockText_bnl, blockText_single, data_append,
          jIndent_data, hp, hA]
        simp only [List.append_assoc, List.cons_append, List.nil_append]
        rw [replicate_merge np d]
        rfl
      · rw [e2]
        exact blockClean_bapp
          (blockClean_bapp ⟨by decide, by simp⟩ (blockClean_bnl _ hAc))
          (blockClean_bnl _ ⟨by decide, by simp⟩)

theorem encJArr_spec : ∀ (np d : Nat) (p : String), p.data = List.replicate (2 * np) ' ' →
    ∀ es : JList, jlGood es = true → isNilJL es = false →
    (encJArr p d es).data
      = List.replicate (2 * (np + d)) ' ' ++ blockText (encJArrLines (np + d) es)
      ∧ BlockClean (encJArrLines (np + d) es) := by
  intro np d p hp es hes hnil
  match es with
  | .cons j rest =>
    have hj' : jGood j = true := by
      have := hes
      simp only [jlGood, Bool.and_eq_true] at this
      exact this.1
    have hrest' : jlGood rest = true := by
      have := hes
      simp only [jlGood, Bool.and_eq_true] at this
      exact this.2
    obtain ⟨hj, hjc⟩ := encJ_spec np d p hp j hj'
    cases hrnil : isNilJL rest with
    | true =>
      match rest, hrnil with
      | .nil, _ =>
        have e1 : encJArr p d (.cons j .nil)
            = p ++ jIndent d ++ encJ p d j ++ "" ++ "" := by
          simp [encJArr, isNilJL]
        have e2 : encJArrLines (np + d) (.cons j .nil)
            = bapp (encJLines (np + d) j) ([], []) := by
          simp [encJArrLines, isNilJL]
        constructor
        · rw [e1, e2]
          simp only [blockText_bapp, blockText_single, data_append, jIndent_data, hp, hj]
          simp only [List.append_assoc, List.append_nil, List.nil_append]
          rw [replicate_merge np d]
        · rw [e2]
          exact blockClean_bapp hjc ⟨cleanSeg_nil, by simp⟩
    | false =>
      obtain ⟨hr, hrc⟩ := encJArr_spec np d p hp rest hrest' hrnil
      have e1 : encJArr p d (.cons j rest)
          = p ++ jIndent d ++ encJ p d j ++ ",\n" ++ encJArr p d rest := by
        simp [encJArr, hrnil]
      have e2 : encJArrLines (np + d) (.cons j rest)
          = bapp (encJLines (np + d) j)
              (bapp (",".data, []) (bnl (np + d) (encJArrLines (np + d) rest))) := by
        simp [encJArrLines, hrnil]
      constructor
      · rw [e1, e2]
        simp only [blockText_bapp, blockText_bnl, blockText_single, data_append,
          jIndent_data, hp, hj, hr]
        simp only [List.append_assoc, List.cons_append, List.nil_append]
        rw [replicate_merge np d]
      · rw [e2]
        exact blockClean_bapp hjc
          (blockClean_bapp ⟨by decide, by simp⟩ (blockClean_bnl _ hrc))

theorem encJObj_spec : ∀ (np d : Nat) (p : String), p.data = List.replicate (2 * np) ' ' →
    ∀ fs : JFields, jfGood fs = true → isNilJF fs = false →
    (encJObj p d fs).data
      = List.replicate (2 * (np + d)) ' ' ++ blockText (encJObjLines (np + d) fs)
      ∧ BlockClean (encJObjLines (np + d) fs) := by
  intro np d p hp fs hfs hnil
  match fs with
  | .cons k j rest =>
    have hk' : strCleanB k = true := by
      have := hfs
      simp only [jfGood, Bool.and_eq_true] at this
      exact this.1.1
    have hj' : jGood j = true := by
      have := hfs
      simp only [jfGood, Bool.and_eq_true] at this
      exact this.1.2
    have hrest' : jfGood rest = true := by
      have := hfs
      simp only [jfGood, Bool.and_eq_true] at this
      exact this.2
    obtain ⟨hj, hjc⟩ := encJ_spec np d p hp j hj'
    cases hrnil : isNilJF rest with
    | true =>
      match rest, hrnil with
      | .nil, _ =>
        have e1 : encJObj p d (.cons k j .nil)
            = p ++ jIndent d ++ "\"" ++ k ++ "\": " ++ encJ p d j ++ "" ++ "" := by
          simp [encJObj, isNilJF]
        have e2 : encJObjLines (np + d) (.cons k j .nil)
            = bapp (("\"" ++ k ++ "\": ").data, [])
                (bapp (encJLines (np + d) j) ([], [])) := by
          simp [encJObjLines, isNilJF]
        constructor
        · rw [e1, e2]
          simp only [blockText_bapp, blockText_single, data_append, jIndent_data, hp, hj]
          simp only [List.append_assoc, List.append_nil, List.nil_append]
          rw [replicate_merge np d]
        · rw [e2]
          exact blockClean_bapp ⟨quotedKey_clean hk', by simp⟩
            (blockClean_bapp hjc ⟨cleanSeg_nil, by simp⟩)
    | false =>
      obtain ⟨hr, hrc⟩ := encJObj_spec np d p hp rest hrest' hrnil
      have e1 : encJObj p d (.cons k j rest)
          = p ++ jIndent d ++ "\"" ++ k ++ "\": " ++ encJ p d j ++ ",\n" ++ encJObj p d rest := by
        simp [encJObj, hrnil]
      have e2 : encJObjLines (np + d) (.cons k j rest)
          = bapp (("\"" ++ k ++ "\": ").data, [])
              (bapp (encJLines (np + d) j)
                (bapp (",".data, []) (bnl (np + d) (encJObjLines (np + d) rest)))) := by
        simp [encJObjLines, hrnil]
      constructor
      · rw [e1, e2]
        simp only [blockText_bapp, blockText_bnl, blockText_single, data_append,
          jIndent_data, hp, hj, hr]
        simp only [List.append_assoc, List.cons_append, List.nil_append]
        rw [replicate_merge np d]
      · rw [e2]
        exact blockClean_bapp ⟨quotedKey_clean hk', by simp⟩
          (blockClean_bapp hjc
            (blockClean_bapp ⟨by decide, by simp⟩ (blockClean_bnl _ hrc)))

end


/-! ### The indentation cache computes two spaces per level -/

theorem getIndent_eq (n : Nat) : getIndent n = twoSpaceRep n := by
  unfold getIndent
  split
  · next h =>
    have hlt : n < (indentCache).length := by
      unfold indentCache
      simpa [maxIndent] using Nat.lt_succ_of_le h
    rw [List.getD_eq_getElem _ _ hlt]
    unfold indentCache
    simp
  · rfl

theorem getIndent_data (n : Nat) :
    (getIndent n).data = List.replicate (2 * n) ' ' := by
  rw [getIndent_eq]
  rfl

theorem getIndent_length (n : Nat) : (getIndent n).length = 2 * n := by
  rw [getIndent_eq]
  show (List.replicate (2 * n) ' ').length = 2 * n
  simp

/-! ### Helper hygiene lemmas for rendered attribute lines -/

theorem normalizeKey_clean {k : String} (h : keyCleanB k = true) :
    CleanSeg (normalizeKey k).data ∧ (normalizeKey k).data ≠ [] := by
  unfold normalizeKey
  split
  · exact ⟨by decide, by decide⟩
  · next hne =>
    refine ⟨keyClean_spec h, ?_⟩
    intro hd
    exact hne (by cases k with | mk d => simp at hd; simp [hd])

theorem chunk_mem {t : String} (lead : List Char) (tail : List Char)
    (h : strCleanB t = true) (hlead : '\n' ∉ lead ∧ '\x1b' ∉ lead)
    (htail : '\n' ∉ tail ∧ '\x1b' ∉ tail) :
    '\n' ∉ lead ++ t.data ++ tail ∧ '\x1b' ∉ lead ++ t.data ++ tail := by
  obtain ⟨h1, h2⟩ := strClean_spec h
  constructor
  · intro hm
    rcases List.mem_append.mp hm with hm | hm
    · rcases List.mem_append.mp hm with hm | hm
      · exact hlead.1 hm
      · exact h1 hm
    · exact htail.1 hm
  · intro hm
    rcases List.mem_append.mp hm with hm | hm
    · rcases List.mem_append.mp hm with hm | hm
      · exact hlead.2 hm
      · exact h2 hm
    · exact htail.2 hm

theorem tailText_noEsc : ∀ {ls : List Line}, (∀ nb ∈ ls, CleanSeg nb.2) →
    '\x1b' ∉ tailText ls := by
  intro ls
  induction ls with
  | nil => intro _; simp
  | cons nb rest ih =>
    intro h hm
    rw [tailText_cons] at hm
    rcases List.mem_append.mp hm with hm | hm
    · rcases List.mem_cons.mp hm with hm | hm
      · exact absurd hm (by decide)
      · rcases List.mem_append.mp hm with hm | hm
        · exact absurd (List.eq_of_mem_replicate hm) (by decide)
        · exact (h nb (by simp)).2.1 hm
    · exact ih (fun y hy => h y (List.mem_cons_of_mem nb hy)) hm

theorem blockText_noEsc {b : JBlock} (h : BlockClean b) :
    '\x1b' ∉ blockText b := by
  rw [blockText_eq]
  intro hm
  rcases List.mem_append.mp hm with hm | hm
  · exact h.1.2.1 hm
  · exact tailText_noEsc h.2 hm

/-- Closing a block with a final newline turns its tail into whole lines. -/
theorem tail_to_lines : ∀ (ls : List Line) (T : List Char),
    tailText ls ++ '\n' :: T = '\n' :: (lineFlat ls ++ T) := by
  intro ls
  induction ls with
  | nil => intro T; rfl
  | cons nb rest ih =>
    intro T
    rw [tailText_cons, lineFlat_cons]
    simp only [List.append_assoc, List.cons_append]
    rw [ih T]

theorem getIndent_noEsc (n : Nat) : '\x1b' ∉ (getIndent n).data := by
  rw [getIndent_data]
  intro hm
  exact absurd (List.eq_of_mem_replicate hm) (by decide)

theorem normKey_append_clean {k t : String} (hk : keyCleanB k = true)
    (ht1 : '\n' ∉ t.data) (ht2 : '\x1b' ∉ t.data) (hth : t.data.head? ≠ some ' ') :
    CleanSeg (normalizeKey k ++ t).data := by
  obtain ⟨hnk, _⟩ := normalizeKey_clean hk
  rw [data_append]
  exact cleanSeg_append hnk ht1 ht2 hth

theorem strTail_mem {s : String} (hs : strCleanB s = true) :
    '\n' ∉ (": \"" ++ s ++ "\"").data ∧ '\x1b' ∉ (": \"" ++ s ++ "\"").data := by
  have h := chunk_mem (t := s) (": \"").data ("\"").data hs
    ⟨by decide, by decide⟩ ⟨by decide, by decide⟩
  simpa [data_append] using h

theorem strBody_clean {k s : String} (hk : keyCleanB k = true)
    (hs : strCleanB s = true) :
    CleanSeg (normalizeKey k ++ (": \"" ++ s ++ "\"")).data := by
  obtain ⟨h1, h2⟩ := strTail_mem hs
  apply normKey_append_clean hk h1 h2
  show ((": \"" ++ s ++ "\"").data).head? ≠ some ' '
  have : (": \"" ++ s ++ "\"").data = ':' :: (" \"" ++ s ++ "\"").data := by
    simp [data_append]
  rw [this]
  simp

theorem str_eq_of_data {s t : String} (h : s.data = t.data) : s = t := by
  cases s
  cases t
  exact congrArg String.mk h

/-- Stripping one full `indent ++ colorize darkGray (body ++ "\n")` chunk. -/
theorem strip_line_chunk {n : Nat} {T B : String} (hTB : T.data = B.data ++ ['\n'])
    (hB : '\x1b' ∉ B.data) (X : List Char) :
    stripAnsi ((getIndent n ++ colorize ansiDarkGray T).data ++ X)
      = List.replicate (2 * n) ' ' ++ (B.data ++ '\n' :: stripAnsi X) := by
  rw [data_append, List.append_assoc]
  rw [stripAnsi_clean_append (getIndent_noEsc n)]
  have hT : '\x1b' ∉ T.data := by
    rw [hTB]
    intro hm
    rcases List.mem_append.mp hm with hm | hm
    · exact hB hm
    · simp at hm
  rw [stripAnsi_colorize strips_darkGray hT X, getIndent_data, hTB]
  simp

/-! ### Equivalence of `appendAttr` with its line-level mirror -/

mutual

theorem appendAttr_spec : ∀ (a : Attr) (n : Nat), attrGood a = true →
    ExceptRel (appendAttr a n) (attrLines a n) := by
  intro a n ha
  match a with
  | .mk key v =>
    have hk : keyCleanB key = true := by
      have := ha
      simp only [attrGood, Bool.and_eq_true] at this
      exact this.1
    have hv : valGood v = true := by
      have := ha
      simp only [attrGood, Bool.and_eq_true] at this
      exact this.2
    match v with
    | .str s =>
      have hs : strCleanB s = true := by simpa [valGood] using hv
      have e1 : appendAttr (.mk key (.str s)) n
          = .ok (getIndent n
              ++ colorize ansiDarkGray (normalizeKey key ++ ": \"" ++ s ++ "\"\n")) := by
        simp [appendAttr, isVNil]
      have e2 : attrLines (.mk key (.str s)) n
          = .ok [(n, (normalizeKey key ++ ": \"" ++ s ++ "\"").data)] := by
        simp [attrLines, isVNil]
      rw [e1, e2]
      refine ⟨?_, ?_⟩
      · intro nb hnb
        simp only [List.mem_singleton] at hnb
        rw [hnb]
        have := strBody_clean hk hs
        simpa [data_append, String.append_assoc] using this
      · intro X
        have hTB : (normalizeKey key ++ ": \"" ++ s ++ "\"\n").data
            = (normalizeKey key ++ ": \"" ++ s ++ "\"").data ++ ['\n'] := by
          simp [data_append]
        have hB : '\x1b' ∉ (normalizeKey key ++ ": \"" ++ s ++ "\"").data := by
          have hassoc : (normalizeKey key ++ ": \"" ++ s ++ "\"")
              = normalizeKey key ++ (": \"" ++ s ++ "\"") :=
            str_eq_of_data (by simp [data_append])
          rw [hassoc]
          exact (strBody_clean hk hs).2.1
        rw [strip_line_chunk hTB hB X]
        simp [lineFlat]
    | .vnil =>
      cases hkey : key == "" with
      | true =>
        have hkeq : key = "" := by simpa using hkey
        have e1 : appendAttr (.mk key .vnil) n = .ok "" := by
          simp [appendAttr, isVNil, hkey]
        have e2 : attrLines (.mk key .vnil) n = .ok [] := by
          simp [attrLines, isVNil, hkey]
        rw [e1, e2]
        exact ⟨by simp, fun X => by simp⟩
      | false =>
        have e1 : appendAttr (.mk key .vnil) n
            = .ok (getIndent n ++ colorize ansiDarkGray (normalizeKey key ++ ": ")
                ++ colorize ansiDarkGray "null" ++ "\n") := by
          simp [appendAttr, isVNil, hkey]
        have e2 : attrLines (.mk key .vnil) n
            = .ok [(n, (normalizeKey key ++ ": null").data)] := by
          simp [attrLines, isVNil, hkey]
        rw [e1, e2]
        have hclean : CleanSeg (normalizeKey key ++ ": null").data :=
          normKey_append_clean hk (by decide) (by decide) (by decide)
        refine ⟨?_, ?_⟩
        · intro nb hnb
          simp only [List.mem_singleton] at hnb
          rw [hnb]
          exact hclean
        · intro X
          have hsplit : (getIndent n ++ colorize ansiDarkGray (normalizeKey key ++ ": ")
                ++ colorize ansiDarkGray "null" ++ "\n").data ++ X
              = (getIndent n).data
                ++ ((colorize ansiDarkGray (normalizeKey key ++ ": ")).data
                  ++ ((colorize ansiDarkGray "null").data ++ ('\n' :: X))) := by
            simp [data_append]
          rw [hsplit, stripAnsi_clean_append (getIndent_noEsc n)]
          have hnk : '\x1b' ∉ (normalizeKey key ++ ": ").data := by
            have := normKey_append_clean hk (t := ": ") (by decide) (by decide) (by decide)
            exact this.2.1
          rw [stripAnsi_colorize strips_darkGray hnk]
          rw [stripAnsi_colorize strips_darkGray (v := "null") (by decide)]
          rw [stripAnsi_cons (by decide)]
          rw [getIndent_data]
          simp [lineFlat, data_append]
    | .other (.bad err) =>
      have e1 : appendAttr (.mk key (.other (.bad err))) n
          = .error ("log marshaling error: " ++ err) := by
        simp [appendAttr, isVNil]
      have e2 : attrLines (.mk key (.other (.bad err))) n
          = .error ("log marshaling error: " ++ err) := by
        simp [attrLines, isVNil]
      rw [e1, e2]
      rfl
    | .other (.enc j) =>
      have hj : jGood j = true := by simpa [valGood] using hv
      obtain ⟨hjdata, hjclean⟩ := encJ_spec n 0 (getIndent n) (getIndent_data n) j hj
      have e1 : appendAttr (.mk key (.other (.enc j))) n
          = .ok (getIndent n ++ colorize ansiDarkGray (normalizeKey key ++ ": ")
              ++ colorize ansiDarkGray (encJ (getIndent n) 0 j) ++ "\n") := by
        simp [appendAttr, isVNil]
      have e2 : attrLines (.mk key (.other (.enc j))) n
          = .ok ((n, (normalizeKey key ++ ": ").data ++ (encJLines n j).1)
              :: (encJLines n j).2) := by
        simp [attrLines, isVNil]
      rw [e1, e2]
      have hn0 : encJLines (n + 0) j = encJLines n j := by rw [Nat.add_zero]
      rw [hn0] at hjdata hjclean
      refine ⟨?_, ?_⟩
      · intro nb hnb
        rcases List.mem_cons.mp hnb with hnb | hnb
        · rw [hnb]
          have hpre : CleanSeg (normalizeKey key ++ ": ").data :=
            normKey_append_clean hk (t := ": ") (by decide) (by decide) (by decide)
          have hf := hjclean.1
          exact cleanSeg_append hpre hf.1 hf.2.1 hf.2.2
        · exact hjclean.2 nb hnb
      · intro X
        have hsplit : (getIndent n ++ colorize ansiDarkGray (normalizeKey key ++ ": ")
              ++ colorize ansiDarkGray (encJ (getIndent n) 0 j) ++ "\n").data ++ X
            = (getIndent n).data
              ++ ((colorize ansiDarkGray (normalizeKey key ++ ": ")).data
                ++ ((colorize ansiDarkGray (encJ (getIndent n) 0 j)).data
                  ++ ('\n' :: X))) := by
          simp [data_append]
        rw [hsplit, stripAnsi_clean_append (getIndent_noEsc n)]
        have hnk : '\x1b' ∉ (normalizeKey key ++ ": ").data := by
          have := normKey_append_clean hk (t := ": ") (by decide) (by decide) (by decide)
          exact this.2.1
        rw [stripAnsi_colorize strips_darkGray hnk]
        have hjesc : '\x1b' ∉ (encJ (getIndent n) 0 j).data := by
          rw [hjdata]
          exact blockText_noEsc hjclean
        rw [stripAnsi_colorize strips_darkGray hjesc]
        rw [stripAnsi_cons (by decide)]
        rw [getIndent_data, hjdata, blockText_eq]
        rw [lineFlat_cons]
        simp only [List.append_assoc]
        rw [tail_to_lines]
        simp
    | .group gs =>
      cases hnil : isNilAL gs with
      | true =>
        match gs, hnil with
        | .anil, _ =>
          have e1 : appendAttr (.mk key (.group .anil)) n = .ok "" := by
            simp [appendAttr, isVNil, isNilAL]
          have e2 : attrLines (.mk key (.group .anil)) n = .ok [] := by
            simp [attrLines, isVNil, isNilAL]
          rw [e1, e2]
          exact ⟨by simp, fun X => by simp⟩
      | false =>
        have hgs : alGood gs = true := by simpa [valGood] using hv
        have hrel := appendAttrList_spec gs (n + 1) hgs
        have hrel0 := appendAttrList_spec gs n hgs
        cases hkey : key == "" with
        | true =>
          have e1 : appendAttr (.mk key (.group gs)) n = appendAttrList gs n := by
            simp [appendAttr, isVNil, hnil, hkey]
          have e2 : attrLines (.mk key (.group gs)) n = attrLinesList gs n := by
            simp [attrLines, isVNil, hnil, hkey]
          rw [e1, e2]
          exact hrel0
        | false =>
          cases hE : appendAttrList gs (n + 1) with
          | error e =>
            cases hL : attrLinesList gs (n + 1) with
            | error e2 =>
              have : e = e2 := by
                rw [hE, hL] at hrel
                exact hrel
              have e1 : appendAttr (.mk key (.group gs)) n = .error e := by
                simp [appendAttr, isVNil, hnil, hkey, hE]
              have e2x : attrLines (.mk key (.group gs)) n = .error e2 := by
                simp [attrLines, isVNil, hnil, hkey, hL]
              rw [e1, e2x]
              exact this
            | ok ls =>
              rw [hE, hL] at hrel
              exact absurd hrel (by simp [ExceptRel])
          | ok inner =>
            cases hL : attrLinesList gs (n + 1) with
            | error e2 =>
              rw [hE, hL] at hrel
              exact absurd hrel (by simp [ExceptRel])
            | ok ls =>
              rw [hE, hL] at hrel
              obtain ⟨hlsclean, hstrip⟩ := hrel
              have e1 : appendAttr (.mk key (.group gs)) n
                  = .ok (getIndent n ++ colorize ansiDarkGray (key ++ ":\n") ++ inner) := by
                simp [appendAttr, isVNil, hnil, hkey, hE]
              have e2x : attrLines (.mk key (.group gs)) n
                  = .ok ((n, (key ++ ":").data) :: ls) := by
                simp [attrLines, isVNil, hnil, hkey, hL]
              rw [e1, e2x]
              refine ⟨?_, ?_⟩
              · intro nb hnb
                rcases List.mem_cons.mp hnb with hnb | hnb
                · rw [hnb]
                  show CleanSeg (key ++ ":").data
                  rw [data_append]
                  exact cleanSeg_append (keyClean_spec hk) (by decide) (by decide)
                    (by decide)
                · exact hlsclean nb hnb
              · intro X
                have hTB : (key ++ ":\n").data = (key ++ ":").data ++ ['\n'] := by
                  simp [data_append]
                have hB : '\x1b' ∉ (key ++ ":").data := by
                  have := cleanSeg_append (keyClean_spec hk)
                    (t := (":" : String).data) (by decide) (by decide) (by decide)
                  rw [← data_append] at this
                  exact this.2.1
                have hsplit : (getIndent n ++ colorize ansiDarkGray (key ++ ":\n")
                      ++ inner).data ++ X
                    = (getIndent n ++ colorize ansiDarkGray (key ++ ":\n")).data
                      ++ (inner.data ++ X) := by
                  simp [data_append]
                rw [hsplit, strip_line_chunk hTB hB, hstrip X, lineFlat_cons]
                simp

theorem appendAttrList_spec : ∀ (l : AttrList) (n : Nat), alGood l = true →
    ExceptRel (appendAttrList l n) (attrLinesList l n) := by
  intro l n hl
  match l with
  | .anil =>
    have e1 : appendAttrList .anil n = .ok "" := by simp [appendAttrList]
    have e2 : attrLinesList .anil n = .ok [] := by simp [attrLinesList]
    rw [e1, e2]
    exact ⟨by simp, fun X => by simp⟩
  | .acons a rest =>
    have ha : attrGood a = true := by
      have := hl
      simp only [alGood, Bool.and_eq_true] at this
      exact this.1
    have hrest : alGood rest = true := by
      have := hl
      simp only [alGood, Bool.and_eq_true] at this
      exact this.2
    have hha := appendAttr_spec a n ha
    have hhr := appendAttrList_spec rest n hrest
    cases hA : appendAttr a n with
    | error e =>
      cases hLa : attrLines a n with
      | error e2 =>
        have heq : e = e2 := by rw [hA, hLa] at hha; exact hha
        have e1 : appendAttrList (.acons a rest) n = .error e := by
          simp [appendAttrList, hA]
        have e2x : attrLinesList (.acons a rest) n = .error e2 := by
          simp [attrLinesList, hLa]
        rw [e1, e2x]
        exact heq
      | ok ls =>
        rw [hA, hLa] at hha
        exact absurd hha (by simp [ExceptRel])
    | ok s =>
      cases hLa : attrLines a n with
      | error e2 =>
        rw [hA, hLa] at hha
        exact absurd hha (by simp [ExceptRel])
      | ok ls =>
        rw [hA, hLa] at hha
        obtain ⟨hclean1, hstrip1⟩ := hha
        cases hR : appendAttrList rest n with
        | error e =>
          cases hLr : attrLinesList rest n with
          | error e2 =>
            have heq : e = e2 := by rw [hR, hLr] at hhr; exact hhr
            have e1 : appendAttrList (.acons a rest) n = .error e := by
              simp [appendAttrList, hA, hR]
            have e2x : attrLinesList (.acons a rest) n = .error e2 := by
              simp [attrLinesList, hLa, hLr]
            rw [e1, e2x]
            exact heq
          | ok ls2 =>
            rw [hR, hLr] at hhr
            exact absurd hhr (by simp [ExceptRel])
        | ok t =>
          cases hLr : attrLinesList rest n with
          | error e2 =>
            rw [hR, hLr] at hhr
            exact absurd hhr (by simp [ExceptRel])
          | ok ls2 =>
            rw [hR, hLr] at hhr
            obtain ⟨hclean2, hstrip2⟩ := hhr
            have e1 : appendAttrList (.acons a rest) n = .ok (s ++ t) := by
              simp [appendAttrList, hA, hR]
            have e2x : attrLinesList (.acons a rest) n = .ok (ls ++ ls2) := by
              simp [attrLinesList, hLa, hLr]
            rw [e1, e2x]
            refine ⟨?_, ?_⟩
            · intro nb hnb
              rcases List.mem_append.mp hnb with hnb | hnb
              · exact hclean1 nb hnb
              · exact hclean2 nb hnb
            · intro X
              rw [data_append, List.append_assoc, hstrip1, hstrip2,
                lineFlat_append]
              simp

end

/-! ### Group flushing, header and `Handle` against their line-level views -/

theorem groups_spec : ∀ (gs : List String) (n : Nat),
    (∀ g ∈ gs, nameCleanB g = true) →
    (∀ nb ∈ groupLines gs n, CleanSeg nb.2)
      ∧ ∀ X, stripAnsi ((appendUnopenedGroupsStr gs n).data ++ X)
          = lineFlat (groupLines gs n) ++ stripAnsi X := by
  intro gs
  induction gs with
  | nil =>
    intro n _
    exact ⟨by simp [groupLines], fun X => by simp [appendUnopenedGroupsStr, groupLines]⟩
  | cons g rest ih =>
    intro n hg
    have hgname : nameCleanB g = true := hg g (by simp)
    have hgkey : keyCleanB g = true := by
      have := hgname
      simp only [nameCleanB, Bool.and_eq_true] at this
      exact this.2
    obtain ⟨ihc, ihs⟩ := ih (n + 1) (fun y hy => hg y (List.mem_cons_of_mem g hy))
    have hgc : CleanSeg (g ++ ":").data := by
      rw [data_append]
      exact cleanSeg_append (keyClean_spec hgkey) (by decide) (by decide) (by decide)
    constructor
    · intro nb hnb
      simp only [groupLines, List.mem_cons] at hnb
      rcases hnb with hnb | hnb
      · rw [hnb]
        exact hgc
      · exact ihc nb hnb
    · intro X
      have e1 : appendUnopenedGroupsStr (g :: rest) n
          = (getIndent n ++ colorize ansiDarkGray (g ++ ":\n"))
            ++ appendUnopenedGroupsStr rest (n + 1) := by
        simp [appendUnopenedGroupsStr, String.append_assoc]
      have hTB : (g ++ ":\n").data = (g ++ ":").data ++ ['\n'] := by
        simp [data_append]
      rw [e1, data_append, List.append_assoc, strip_line_chunk hTB hgc.2.1, ihs X]
      show _ = lineFlat ((n, (g ++ ":").data) :: groupLines rest (n + 1)) ++ _
      rw [lineFlat_cons]
      simp

theorem header_spec (r : Record) (hr : recordGood r = true) :
    CleanSeg (headerLine r).2
      ∧ ∀ X, stripAnsi ((headerText r).data ++ X)
          = lineFlat [headerLine r] ++ stripAnsi X := by
  have htt : keyCleanB r.timeText = true := by
    have := hr
    simp only [recordGood, Bool.and_eq_true] at this
    exact this.1.1.1
  have htne : r.hasTime = true → r.timeText ≠ "" := by
    have := hr
    simp only [recordGood, Bool.and_eq_true] at this
    intro hh
    have h2 := this.1.1.2
    rw [hh] at h2
    simpa using h2
  have hmsg : strCleanB r.message = true := by
    have := hr
    simp only [recordGood, Bool.and_eq_true] at this
    exact this.1.2
  obtain ⟨httc1, httc2⟩ := strClean_spec (by
    have := htt
    simp only [keyCleanB, Bool.and_eq_true] at this
    exact this.1)
  have htth : r.timeText.data.head? ≠ some ' ' := by
    have := htt
    simp only [keyCleanB, Bool.and_eq_true] at this
    simpa using this.2
  obtain ⟨hmc1, hmc2⟩ := strClean_spec hmsg
  have hlvl := levelString_clean r.level
  obtain ⟨hlc, hlhead, hlns⟩ := levelString_head r.level
  -- the header body and its cleanliness
  constructor
  · show CleanSeg ((if r.hasTime then r.timeText ++ " " else "")
      ++ levelString r.level ++ ": " ++ r.message).data
    cases hht : r.hasTime with
    | false =>
      simp only [if_false, Bool.false_eq_true]
      have hbase : CleanSeg (levelString r.level).data := hlvl
      have : ("" ++ levelString r.level ++ ": " ++ r.message)
          = levelString r.level ++ (": " ++ r.message) :=
        str_eq_of_data (by simp [data_append])
      rw [this, data_append]
      apply cleanSeg_append hbase
      · rw [data_append]
        intro hm
        rcases List.mem_append.mp hm with hm | hm
        · simp at hm
        · exact hmc1 hm
      · rw [data_append]
        intro hm
        rcases List.mem_append.mp hm with hm | hm
        · simp at hm
        · exact hmc2 hm
      · have : (": " ++ r.message).data = ':' :: (" " ++ r.message).data := by
          simp [data_append]
        rw [this]
        simp
    | true =>
      simp only [if_true]
      have htne2 : r.timeText.data ≠ [] := by
        intro hd
        exact htne hht (str_eq_of_data (s := r.timeText) (t := "") (by simpa using hd))
      have hbase : CleanSeg r.timeText.data := ⟨httc1, httc2, htth⟩
      have : (r.timeText ++ " " ++ levelString r.level ++ ": " ++ r.message)
          = r.timeText ++ (" " ++ levelString r.level ++ (": " ++ r.message)) :=
        str_eq_of_data (by simp [data_append])
      rw [this, data_append]
      have hrest1 : '\n' ∉ (" " ++ levelString r.level ++ (": " ++ r.message)).data := by
        simp only [data_append]
        intro hm
        rcases List.mem_append.mp hm with hm | hm
        · rcases List.mem_append.mp hm with hm | hm
          · simp at hm
          · exact hlvl.1 hm
        · rcases List.mem_append.mp hm with hm | hm
          · simp at hm
          · exact hmc1 hm
      have hrest2 : '\x1b' ∉ (" " ++ levelString r.level ++ (": " ++ r.message)).data := by
        simp only [data_append]
        intro hm
        rcases List.mem_append.mp hm with hm | hm
        · rcases List.mem_append.mp hm with hm | hm
          · simp at hm
          · exact hlvl.2.1 hm
        · rcases List.mem_append.mp hm with hm | hm
          · simp at hm
          · exact hmc2 hm
      -- head of the appended tail is the literal space, but the base is
      -- nonempty, so cleanSeg_append with the nonempty-base case applies
      refine ⟨?_, ?_, ?_⟩
      · intro hm
        rcases List.mem_append.mp hm with hm | hm
        · exact httc1 hm
        · exact hrest1 hm
      · intro hm
        rcases List.mem_append.mp hm with hm | hm
        · exact httc2 hm
        · exact hrest2 hm
      · cases hd : r.timeText.data with
        | nil => exact absurd hd htne2
        | cons c cs =>
          intro hcontra
          apply htth
          rw [hd]
          have hc : c = ' ' := by simpa using hcontra
          rw [hc]
          rfl
  · intro X
    cases hht : r.hasTime with
    | false =>
      have e1 : (headerText r).data ++ X
          = (colorize (levelColor r.level) (levelString r.level ++ ":")).data
            ++ (' ' :: ((colorize ansiWhite r.message).data ++ ('\n' :: X))) := by
        simp [headerText, hht, data_append]
      rw [e1]
      rw [stripAnsi_colorize (strips_levelColor r.level) (v := levelString r.level ++ ":")
        (by rw [data_append]; intro hm; rcases List.mem_append.mp hm with hm | hm
            · exact (levelString_clean r.level).2.1 hm
            · simp at hm)]
      rw [stripAnsi_cons (by decide)]
      rw [stripAnsi_colorize strips_white hmc2]
      rw [stripAnsi_cons (by decide)]
      show _ = lineFlat [(0, _)] ++ _
      rw [lineFlat_cons]
      simp [headerLine, hht, data_append]
    | true =>
      have e1 : (headerText r).data ++ X
          = (colorize ansiLightGray r.timeText).data
            ++ (' ' :: ((colorize (levelColor r.level) (levelString r.level ++ ":")).data
              ++ (' ' :: ((colorize ansiWhite r.message).data ++ ('\n' :: X))))) := by
        simp [headerText, hht, data_append]
      rw [e1]
      rw [stripAnsi_colorize strips_lightGray httc2]
      rw [stripAnsi_cons (by decide)]
      rw [stripAnsi_colorize (strips_levelColor r.level) (v := levelString r.level ++ ":")
        (by rw [data_append]; intro hm; rcases List.mem_append.mp hm with hm | hm
            · exact (levelString_clean r.level).2.1 hm
            · simp at hm)]
      rw [stripAnsi_cons (by decide)]
      rw [stripAnsi_colorize strips_white hmc2]
      rw [stripAnsi_cons (by decide)]
      show _ = lineFlat [(0, _)] ++ _
      rw [lineFlat_cons]
      simp [headerLine, hht, data_append]

theorem alGood_of_recordGood {r : Record} (hr : recordGood r = true) :
    alGood r.attrs = true := by
  have := hr
  simp only [recordGood, Bool.and_eq_true] at this
  exact this.2

/-- A successful `Handle` call renders exactly the line-level view: header
line, buffered-prefix lines, then (when the record has attributes) the
flushed group headers and the record's attribute lines. -/
theorem Handle_spec : ∀ (h : Handler) (r : Record) (pls : List Line) (s : String),
    recordGood r = true →
    (∀ nb ∈ pls, CleanSeg nb.2) →
    (∀ X, stripAnsi (h.preBuf.data ++ X) = lineFlat pls ++ stripAnsi X) →
    (∀ g ∈ h.unopenedGroups, nameCleanB g = true) →
    Handle h r = .ok s →
    ∃ als, attrLinesList r.attrs (h.indent + h.unopenedGroups.length) = .ok als
      ∧ (∀ nb ∈ handleLines r pls h.unopenedGroups h.indent als, CleanSeg nb.2)
      ∧ stripAnsi s.data
          = lineFlat (handleLines r pls h.unopenedGroups h.indent als) := by
  intro h r pls s hr hplc hpls hgn hok
  obtain ⟨hhc, hhs⟩ := header_spec r hr
  cases hnil : isNilAL r.attrs with
  | true =>
    have hanil : r.attrs = .anil := by
      cases hattrs : r.attrs with
      | anil => rfl
      | acons a rest => rw [hattrs] at hnil; simp [isNilAL] at hnil
    have e1 : Handle h r = .ok (headerText r ++ h.preBuf) := by
      simp [Handle, hnil]
    rw [e1] at hok
    have hs : s = headerText r ++ h.preBuf :=
      ((Except.ok.injEq _ _).mp hok).symm
    refine ⟨[], by rw [hanil]; rfl, ?_, ?_⟩
    · intro nb hnb
      simp only [handleLines, hnil, if_true, List.mem_cons] at hnb
      rcases hnb with hnb | hnb
      · rw [hnb]; exact hhc
      · exact hplc nb hnb
    · rw [hs]
      have : (headerText r ++ h.preBuf).data
          = (headerText r).data ++ (h.preBuf.data ++ []) := by
        simp [data_append]
      rw [this, hhs, hpls []]
      simp only [handleLines, hnil, if_true]
      rw [show (headerLine r :: pls) = [headerLine r] ++ pls from rfl, lineFlat_append]
      simp
  | false =>
    have hal : alGood r.attrs = true := alGood_of_recordGood hr
    have hrel := appendAttrList_spec r.attrs (h.indent + h.unopenedGroups.length) hal
    cases hE : appendAttrList r.attrs (h.indent + h.unopenedGroups.length) with
    | error e =>
      have : Handle h r = .error e := by
        simp [Handle, hnil, hE]
      rw [this] at hok
      exact absurd hok (by simp)
    | ok s0 =>
      cases hL : attrLinesList r.attrs (h.indent + h.unopenedGroups.length) with
      | error e2 =>
        rw [hE, hL] at hrel
        exact absurd hrel (by simp [ExceptRel])
      | ok als =>
        rw [hE, hL] at hrel
        obtain ⟨halc, hals⟩ := hrel
        have e1 : Handle h r
            = .ok (headerText r ++ h.preBuf
                ++ appendUnopenedGroupsStr h.unopenedGroups h.indent ++ s0) := by
          simp [Handle, hnil, hE]
        rw [e1] at hok
        have hs : s = headerText r ++ h.preBuf
            ++ appendUnopenedGroupsStr h.unopenedGroups h.indent ++ s0 :=
          ((Except.ok.injEq _ _).mp hok).symm
        obtain ⟨hglc, hgls⟩ := groups_spec h.unopenedGroups h.indent hgn
        refine ⟨als, rfl, ?_, ?_⟩
        · intro nb hnb
          simp only [handleLines, hnil, Bool.false_eq_true, if_false,
            List.mem_cons, List.mem_append] at hnb
          rcases hnb with hnb | (hnb | hnb) | hnb
          · rw [hnb]; exact hhc
          · exact hplc nb hnb
          · exact hglc nb hnb
          · exact halc nb hnb
        · rw [hs]
          have : (headerText r ++ h.preBuf
                ++ appendUnopenedGroupsStr h.unopenedGroups h.indent ++ s0).data
              = (headerText r).data ++ (h.preBuf.data
                ++ ((appendUnopenedGroupsStr h.unopenedGroups h.indent).data
                  ++ (s0.data ++ []))) := by
            simp [data_append]
          rw [this, hhs, hpls, hgls, hals []]
          simp only [handleLines, hnil, Bool.false_eq_true, if_false]
          rw [show (headerLine r :: (pls ++ groupLines h.unopenedGroups h.indent ++ als))
              = [headerLine r] ++ (pls ++ groupLines h.unopenedGroups h.indent ++ als)
              from rfl]
          rw [lineFlat_append, lineFlat_append, lineFlat_append]
          simp

/-- Every handler reachable through clean transformations has a buffered
prefix made of whole clean lines, and clean nonempty pending group names. -/
theorem Built_inv : ∀ {h : Handler}, Built h →
    (∃ pls, (∀ nb ∈ pls, CleanSeg nb.2)
        ∧ ∀ X, stripAnsi (h.preBuf.data ++ X) = lineFlat pls ++ stripAnsi X)
      ∧ (∀ g ∈ h.unopenedGroups, nameCleanB g = true) := by
  intro h hb
  induction hb with
  | fresh w mu opts =>
    refine ⟨⟨[], by simp, fun X => ?_⟩, by simp [NewConsoleHandler]⟩
    show stripAnsi (("" : String).data ++ X) = lineFlat [] ++ stripAnsi X
    simp
  | grp name hb hclean ih =>
    obtain ⟨⟨pls, hplc, hpls⟩, hgn⟩ := ih
    cases hname : name == "" with
    | true =>
      have : name = "" := by simpa using hname
      rw [WithGroup, if_pos this]
      exact ⟨⟨pls, hplc, hpls⟩, hgn⟩
    | false =>
      have hne : ¬ name = "" := by simpa using hname
      rw [WithGroup, if_neg hne]
      refine ⟨⟨pls, hplc, hpls⟩, ?_⟩
      intro g hg
      simp only [List.mem_append, List.mem_singleton] at hg
      rcases hg with hg | hg
      · exact hgn g hg
      · rw [hg]
        simp only [nameCleanB, Bool.and_eq_true]
        exact ⟨by simpa using hne, hclean⟩
  | attrs as hb hgood heq ih =>
    obtain ⟨⟨pls, hplc, hpls⟩, hgn⟩ := ih
    rename_i hpar h2
    cases hnil : isNilAL as with
    | true =>
      rw [WithAttrs, if_pos (by rw [hnil])] at heq
      have : hpar = h2 := by
        exact (Except.ok.injEq _ _).mp heq.symm |>.symm
      rw [← this]
      exact ⟨⟨pls, hplc, hpls⟩, hgn⟩
    | false =>
      have hrel := appendAttrList_spec as (hpar.indent + hpar.unopenedGroups.length) hgood
      cases hE : appendAttrList as (hpar.indent + hpar.unopenedGroups.length) with
      | error e =>
        simp only [WithAttrs, hnil, Bool.false_eq_true, if_false, hE] at heq
        exact absurd heq (by simp)
      | ok s0 =>
        cases hL : attrLinesList as (hpar.indent + hpar.unopenedGroups.length) with
        | error e2 =>
          rw [hE, hL] at hrel
          exact absurd hrel (by simp [ExceptRel])
        | ok als =>
          rw [hE, hL] at hrel
          obtain ⟨halc, hals⟩ := hrel
          simp only [WithAttrs, hnil, Bool.false_eq_true, if_false, hE,
            Except.ok.injEq] at heq
          have h2eq : h2 = { hpar with
              preBuf := (hpar.preBuf
                ++ appendUnopenedGroupsStr hpar.unopenedGroups hpar.indent) ++ s0
              indent := hpar.indent + hpar.unopenedGroups.length
              unopenedGroups := [] } := heq.symm
          obtain ⟨hglc, hgls⟩ := groups_spec hpar.unopenedGroups hpar.indent hgn
          refine ⟨⟨pls ++ groupLines hpar.unopenedGroups hpar.indent ++ als, ?_, ?_⟩, ?_⟩
          · intro nb hnb
            simp only [List.mem_append] at hnb
            rcases hnb with (hnb | hnb) | hnb
            · exact hplc nb hnb
            · exact hglc nb hnb
            · exact halc nb hnb
          · intro X
            rw [h2eq]
            show stripAnsi (((hpar.preBuf
                ++ appendUnopenedGroupsStr hpar.unopenedGroups hpar.indent) ++ s0).data
                  ++ X) = _
            have : (((hpar.preBuf
                ++ appendUnopenedGroupsStr hpar.unopenedGroups hpar.indent) ++ s0).data
                  ++ X)
                = hpar.preBuf.data
                  ++ ((appendUnopenedGroupsStr hpar.unopenedGroups hpar.indent).data
                    ++ (s0.data ++ X)) := by
              simp [data_append]
            rw [this, hpls, hgls, hals X, lineFlat_append, lineFlat_append]
            simp
          · rw [h2eq]
            simp

/-! ### Panic propagation lemmas -/

mutual

theorem appendAttr_error : ∀ (a : Attr) (n : Nat) (e : String),
    appendAttr a n = .error e → ∃ msg, e = "log marshaling error: " ++ msg := by
  intro a n e h
  match a with
  | .mk key v =>
    match v with
    | .str s => simp [appendAttr, isVNil] at h
    | .vnil =>
      cases hkey : key == "" with
      | true => simp [appendAttr, isVNil, hkey] at h
      | false => simp [appendAttr, isVNil, hkey] at h
    | .other (.enc j) => simp [appendAttr, isVNil] at h
    | .other (.bad err) =>
      simp only [appendAttr, isVNil, Bool.and_false, Bool.false_eq_true, if_false,
        Except.error.injEq] at h
      exact ⟨err, h.symm⟩
    | .group gs =>
      cases hnil : isNilAL gs with
      | true => simp [appendAttr, isVNil, hnil] at h
      | false =>
        cases hkey : key == "" with
        | true =>
          have h2 : appendAttrList gs n = .error e := by
            simpa [appendAttr, isVNil, hnil, hkey] using h
          exact appendAttrList_error gs n e h2
        | false =>
          cases hE : appendAttrList gs (n + 1) with
          | error e0 =>
            have : e0 = e := by
              simpa [appendAttr, isVNil, hnil, hkey, hE] using h
            exact this ▸ appendAttrList_error gs (n + 1) e0 hE
          | ok inner => simp [appendAttr, isVNil, hnil, hkey, hE] at h

theorem appendAttrList_error : ∀ (l : AttrList) (n : Nat) (e : String),
    appendAttrList l n = .error e → ∃ msg, e = "log marshaling error: " ++ msg := by
  intro l n e h
  match l with
  | .anil => simp [appendAttrList] at h
  | .acons a rest =>
    cases hA : appendAttr a n with
    | error e0 =>
      have : e0 = e := by simpa [appendAttrList, hA] using h
      exact this ▸ appendAttr_error a n e0 hA
    | ok s =>
      cases hR : appendAttrList rest n with
      | error e0 =>
        have : e0 = e := by simpa [appendAttrList, hA, hR] using h
        exact this ▸ appendAttrList_error rest n e0 hR
      | ok t => simp [appendAttrList, hA, hR] at h

end

theorem appendAttrList_hasBad : ∀ (l : AttrList) (n : Nat), hasBad l = true →
    ∃ e, appendAttrList l n = .error e := by
  intro l n hb
  match l with
  | .anil => simp [hasBad] at hb
  | .acons (.mk k v) rest =>
    match v with
      | .other (.bad err) =>
        refine ⟨"log marshaling error: " ++ err, ?_⟩
        simp [appendAttrList, appendAttr, isVNil]
      | .str s =>
        have hbr : hasBad rest = true := by simpa [hasBad] using hb
        cases hA : appendAttr (.mk k (.str s)) n with
        | error e => exact ⟨e, by simp [appendAttrList, hA]⟩
        | ok s0 =>
          obtain ⟨e, he⟩ := appendAttrList_hasBad rest n hbr
          exact ⟨e, by simp [appendAttrList, hA, he]⟩
      | .vnil =>
        have hbr : hasBad rest = true := by simpa [hasBad] using hb
        cases hA : appendAttr (.mk k .vnil) n with
        | error e => exact ⟨e, by simp [appendAttrList, hA]⟩
        | ok s0 =>
          obtain ⟨e, he⟩ := appendAttrList_hasBad rest n hbr
          exact ⟨e, by simp [appendAttrList, hA, he]⟩
      | .other (.enc j) =>
        have hbr : hasBad rest = true := by simpa [hasBad] using hb
        cases hA : appendAttr (.mk k (.other (.enc j))) n with
        | error e => exact ⟨e, by simp [appendAttrList, hA]⟩
        | ok s0 =>
          obtain ⟨e, he⟩ := appendAttrList_hasBad rest n hbr
          exact ⟨e, by simp [appendAttrList, hA, he]⟩
      | .group gs =>
        have hbr : hasBad rest = true := by simpa [hasBad] using hb
        cases hA : appendAttr (.mk k (.group gs)) n with
        | error e => exact ⟨e, by simp [appendAttrList, hA]⟩
        | ok s0 =>
          obtain ⟨e, he⟩ := appendAttrList_hasBad rest n hbr
          exact ⟨e, by simp [appendAttrList, hA, he]⟩

theorem Handle_hasBad (h : Handler) (r : Record) (hb : hasBad r.attrs = true) :
    ∃ msg, Handle h r = .error ("log marshaling error: " ++ msg) := by
  have hnil : isNilAL r.attrs = false := by
    cases hattrs : r.attrs with
    | anil => rw [hattrs] at hb; simp [hasBad] at hb
    | acons a rest => simp [isNilAL]
  obtain ⟨e, he⟩ := appendAttrList_hasBad r.attrs
    (h.indent + h.unopenedGroups.length) hb
  obtain ⟨msg, hmsg⟩ := appendAttrList_error _ _ _ he
  refine ⟨msg, ?_⟩
  rw [← hmsg]
  simp [Handle, hnil, he]

/-! ### Supporting lemmas for the claim theorems -/

@[simp] theorem anil_append (l : AttrList) : AttrList.anil ++ l = l := rfl

@[simp] theorem acons_append (a : Attr) (rest l : AttrList) :
    AttrList.acons a rest ++ l = .acons a (rest ++ l) := rfl

theorem foldl_append_shift : ∀ (l : List String) (a b : String),
    List.foldl (· ++ ·) (a ++ b) l = a ++ List.foldl (· ++ ·) b l := by
  intro l
  induction l with
  | nil => intro a b; rfl
  | cons x xs ihx =>
    intro a b
    simp only [List.foldl_cons]
    have hassoc : a ++ b ++ x = a ++ (b ++ x) := str_eq_of_data (by simp [data_append])
    rw [hassoc, ihx a (b ++ x)]

theorem join_cons (s : String) (l : List String) :
    String.join (s :: l) = s ++ String.join l := by
  show List.foldl (· ++ ·) "" (s :: l) = s ++ List.foldl (· ++ ·) "" l
  simp only [List.foldl_cons]
  have h1 : ("" : String) ++ s = s ++ "" := str_eq_of_data (by simp [data_append])
  rw [h1, foldl_append_shift]

/-- The loop of `appendUnopenedGroups` agrees with the positional
description: one header per name, at `base + position`. -/
theorem appendUnopenedGroupsStr_enum : ∀ (names : List String) (base : Nat),
    appendUnopenedGroupsStr names base = groupHeaderEnum names base := by
  intro names
  induction names with
  | nil => intro base; rfl
  | cons g rest ih =>
    intro base
    have hfix : ∀ i ∈ List.range rest.length,
        ((fun i => getIndent (base + i)
            ++ colorize ansiDarkGray ((g :: rest).getD i "" ++ ":\n")) ∘ (· + 1)) i
          = (fun i => getIndent (base + 1 + i)
            ++ colorize ansiDarkGray (rest.getD i "" ++ ":\n")) i := by
      intro i _
      show getIndent (base + (i + 1)) ++ colorize ansiDarkGray (rest.getD i "" ++ ":\n")
          = getIndent (base + 1 + i) ++ colorize ansiDarkGray (rest.getD i "" ++ ":\n")
      have h1 : base + (i + 1) = base + 1 + i := by ring
      rw [h1]
    have hstep : groupHeaderEnum (g :: rest) base
        = (getIndent base ++ colorize ansiDarkGray (g ++ ":\n"))
          ++ groupHeaderEnum rest (base + 1) := by
      unfold groupHeaderEnum
      rw [List.length_cons, List.range_succ_eq_map, List.map_cons, List.map_map]
      rw [List.map_congr_left hfix, join_cons]
      rfl
    rw [hstep, ← ih (base + 1)]
    show getIndent base ++ colorize ansiDarkGray (g ++ ":\n")
        ++ appendUnopenedGroupsStr rest (base + 1) = _
    exact str_eq_of_data (by simp [data_append])

/-- `appendAttrList` is the concatenation of the per-attribute renders. -/
theorem appendAttrList_renderEach : ∀ (l : AttrList) (n : Nat),
    appendAttrList l n = (renderEach l n).map String.join := by
  intro l n
  match l with
  | .anil => rfl
  | .acons a rest =>
    cases hA : appendAttr a n with
    | error e => simp [appendAttrList, renderEach, hA, Except.map]
    | ok s =>
      cases hR : renderEach rest n with
      | error e =>
        have := appendAttrList_renderEach rest n
        rw [hR] at this
        simp [appendAttrList, renderEach, hA, hR, this, Except.map]
      | ok ss =>
        have := appendAttrList_renderEach rest n
        rw [hR] at this
        simp only [appendAttrList, renderEach, hA, hR, this, Except.map]
        rw [join_cons]

/-- Removing an empty group from anywhere in an attribute list leaves the
rendered text unchanged. -/
theorem appendAttrList_drop_empty_group :
    ∀ (pre : AttrList) (k2 : String) (post : AttrList) (n : Nat),
      appendAttrList (pre ++ .acons (.mk k2 (.group .anil)) post) n
        = appendAttrList (pre ++ post) n := by
  intro pre
  match pre with
  | .anil =>
    intro k2 post n
    show appendAttrList (.acons (.mk k2 (.group .anil)) post) n = _
    have hA : appendAttr (.mk k2 (.group .anil)) n = .ok "" := by
      simp [appendAttr, isVNil, isNilAL]
    simp only [appendAttrList, hA, anil_append]
    cases hR : appendAttrList post n with
    | error e => rfl
    | ok t =>
      show Except.ok (("" : String) ++ t) = Except.ok t
      rw [str_eq_of_data (s := ("" : String) ++ t) (t := t) (by simp [data_append])]
  | .acons a rest =>
    intro k2 post n
    show appendAttrList (.acons a (rest ++ .acons (.mk k2 (.group .anil)) post)) n = _
    simp only [appendAttrList]
    rw [appendAttrList_drop_empty_group rest k2 post n]
    rfl

/-- The deep-nesting scenario, computed through the line-level view: the
header line at level 0, the 35 group headers at levels 1..35, the
attribute line at level 36, and the empty tail after the final newline. -/
theorem h35_handle_lines : ∃ s, Handle h35 r35 = .ok s
    ∧ lineIndents s = ((List.range 37).map fun i => 2 * i) ++ [0] := by
  have hgood : recordGood r35 = true := by decide
  have hplc : ∀ nb ∈ ([] : List Line), CleanSeg nb.2 := by simp
  have hpls : ∀ X, stripAnsi (h35.preBuf.data ++ X) = lineFlat [] ++ stripAnsi X := by
    intro X
    show stripAnsi (("" : String).data ++ X) = lineFlat [] ++ stripAnsi X
    simp
  have hnames : ∀ g ∈ h35.unopenedGroups, nameCleanB g = true := by decide
  have hL : attrLinesList r35.attrs (h35.indent + h35.unopenedGroups.length)
      = .ok [(36, ("key: \"value\"" : String).data)] := rfl
  have hrel := appendAttrList_spec r35.attrs (h35.indent + h35.unopenedGroups.length)
    (alGood_of_recordGood hgood)
  cases hE : appendAttrList r35.attrs (h35.indent + h35.unopenedGroups.length) with
  | error e =>
    rw [hE, hL] at hrel
    exact absurd hrel (by simp [ExceptRel])
  | ok s0 =>
    have hnl : isNilAL r35.attrs = false := rfl
    have hok : Handle h35 r35 = .ok (headerText r35 ++ h35.preBuf
        ++ appendUnopenedGroupsStr h35.unopenedGroups h35.indent ++ s0) := by
      simp [Handle, hnl, hE]
    obtain ⟨als, hals, hclean, hstrip⟩ :=
      Handle_spec h35 r35 [] _ hgood hplc hpls hnames hok
    have halseq : [(36, ("key: \"value\"" : String).data)] = als :=
      (Except.ok.injEq _ _).mp (hL.symm.trans hals)
    refine ⟨_, hok, ?_⟩
    rw [lineIndents_of_lineFlat hclean hstrip, ← halseq]
    decide

/-! ### Claim theorems -/

/-- C1 counterexample: a group attribute whose only child is the empty
attribute (`slog.Attr{}`, constructible in Go as `slog.Group("g",
slog.Attr{})`) has zero resolved attributes, yet rendering emits a
dangling `g:` header line — the output is not empty. -/
theorem c1_counterexample :
    appendAttr (.mk "g" (.group (.acons (.mk "" .vnil) .anil))) 1
      = .ok ("  " ++ colorize ansiDarkGray "g:\n")
    ∧ ("  " ++ colorize ansiDarkGray "g:\n") ≠ "" := by
  exact ⟨rfl, by decide⟩

/-- C1 (amended): a group attribute whose attribute list is empty renders
to nothing at every indentation level, and an empty group anywhere inside
an attribute list leaves the rendered output unchanged; however a group
whose children merely resolve to nothing (e.g. an empty attribute child)
still emits its header, as the counterexample shows. -/
theorem c1_empty_group_silent : ∀ (key : String) (n : Nat),
    appendAttr (.mk key (.group .anil)) n = .ok ""
    ∧ ∀ (pre post : AttrList) (k2 : String),
        appendAttrList (pre ++ .acons (.mk k2 (.group .anil)) post) n
          = appendAttrList (pre ++ post) n := by
  intro key n
  refine ⟨by simp [appendAttr, isVNil, isNilAL], ?_⟩
  intro pre post k2
  exact appendAttrList_drop_empty_group pre k2 post n

/-- C2 counterexample: rendering a record under 35 nested groups succeeds,
but the deepest output line carries 72 leading spaces (the attribute line
at level 36 = base 1 + 35 groups), not 70. -/
theorem c2_counterexample :
    (Handle h35 r35).isOk = true
    ∧ (lineIndents ((Handle h35 r35).toOption.getD "")).foldr max 0 = 72
    ∧ (lineIndents ((Handle h35 r35).toOption.getD "")).foldr max 0 ≠ 70 := by
  obtain ⟨s, hok, hind⟩ := h35_handle_lines
  rw [hok]
  refine ⟨rfl, ?_, ?_⟩
  · show (lineIndents s).foldr max 0 = 72
    rw [hind]
    decide
  · show (lineIndents s).foldr max 0 ≠ 70
    rw [hind]
    decide

/-- C2 (amended): beyond the cache bound of 30 the indentation string is
computed by the uncached fallback (two spaces per level); rendering a
record under 35 nested groups produces lines indented 0, 2, 4, …, 70
(the deepest group header) and 72 (the attribute line beneath it). -/
theorem c2_deep_nesting :
    (∀ n, n > maxIndent → getIndent n = twoSpaceRep n
        ∧ (twoSpaceRep n).length = 2 * n)
    ∧ maxIndent = 30
    ∧ (Handle h35 r35).isOk = true
    ∧ lineIndents ((Handle h35 r35).toOption.getD "")
        = ((List.range 37).map fun i => 2 * i) ++ [0] := by
  refine ⟨?_, rfl, ?_, ?_⟩
  · intro n hn
    constructor
    · unfold getIndent
      rw [if_neg (by omega)]
    · show (List.replicate (2 * n) ' ').length = 2 * n
      simp
  · obtain ⟨s, hok, _⟩ := h35_handle_lines
    rw [hok]
    rfl
  · obtain ⟨s, hok, hind⟩ := h35_handle_lines
    rw [hok]
    exact hind

/-- C2 witness: level 35 lies beyond the cache bound and its indentation
is the fallback string of 70 spaces. -/
theorem c2_witness : getIndent 35 = twoSpaceRep 35
    ∧ (twoSpaceRep 35).length = 2 * 35 :=
  c2_deep_nesting.1 35 (by decide)

/-- C3 counterexample: a string value holding a raw newline followed by a
space produces an output line with one leading space — odd indentation. -/
theorem c3_counterexample :
    (Handle (NewConsoleHandler 0 0 none) rBadNL).isOk = true
    ∧ lineIndents ((Handle (NewConsoleHandler 0 0 none) rBadNL).toOption.getD "")
        = [0, 2, 1, 0] := by
  exact ⟨rfl, by decide⟩

/-- C3 (amended): the indentation string of level `m` has length `2 * m`,
and for every handler built through clean transformations and every clean
record (no raw newlines or escapes in keys, values, message or timestamp,
and no key beginning with a space), every line of the successfully
rendered, color-stripped output has an even number of leading spaces. -/
theorem c3_even_indentation : ∀ (h : Handler) (r : Record) (s : String),
    Built h → recordGood r = true → Handle h r = .ok s →
    (∀ m, (getIndent m).length = 2 * m)
    ∧ ∀ line ∈ splitLines (stripAnsi s.data), ∃ k, leadingSpacesCL line = 2 * k := by
  intro h r s hb hr hok
  obtain ⟨⟨pls, hplc, hpls⟩, hgn⟩ := Built_inv hb
  obtain ⟨als, hals, hclean, hstrip⟩ := Handle_spec h r pls s hr hplc hpls hgn hok
  refine ⟨getIndent_length, ?_⟩
  intro line hline
  rw [hstrip, splitLines_lineFlat (fun nb hnb => (hclean nb hnb).1)] at hline
  rcases List.mem_append.mp hline with hl | hl
  · obtain ⟨nb, hnb, heq⟩ := List.mem_map.mp hl
    rw [← heq, leadingSpaces_replicate (hclean nb hnb).2.2]
    exact ⟨nb.1, rfl⟩
  · have : line = [] := by simpa using hl
    rw [this]
    exact ⟨0, rfl⟩

/-- C3 witness: the even-indentation theorem applied to a fresh handler
and a small clean record. -/
theorem c3_witness :
    (∀ m, (getIndent m).length = 2 * m)
    ∧ ∀ line ∈ splitLines (stripAnsi
        (((Handle (NewConsoleHandler 0 0 none) demoRecord).toOption.getD "").data)),
      ∃ k, leadingSpacesCL line = 2 * k :=
  c3_even_indentation (NewConsoleHandler 0 0 none) demoRecord
    ((Handle (NewConsoleHandler 0 0 none) demoRecord).toOption.getD "")
    (Built.fresh 0 0 none) (by decide) rfl

/-- C4: for a non-empty attribute list, `WithAttrs` returns a new handler
whose buffered prefix is the old prefix, followed by one header line per
pending unopened group at successively increasing indentation, followed by
each attribute rendered at the old base indentation plus the number of
flushed groups; the base indentation advances by that number, the
unopened-group list is cleared, and the sink, mutex and level are shared. -/
theorem c4_withattrs_contract : ∀ (h h2 : Handler) (attrs : AttrList),
    isNilAL attrs = false → WithAttrs h attrs = .ok h2 →
    ∃ ss, renderEach attrs (h.indent + h.unopenedGroups.length) = .ok ss
      ∧ h2.preBuf = h.preBuf ++ groupHeaderEnum h.unopenedGroups h.indent
          ++ String.join ss
      ∧ h2.indent = h.indent + h.unopenedGroups.length
      ∧ h2.unopenedGroups = []
      ∧ h2.w = h.w ∧ h2.mu = h.mu ∧ h2.level = h.level := by
  intro h h2 attrs hnil heq
  cases hR : renderEach attrs (h.indent + h.unopenedGroups.length) with
  | error e =>
    have hE : appendAttrList attrs (h.indent + h.unopenedGroups.length) = .error e := by
      rw [appendAttrList_renderEach, hR]
      rfl
    simp only [WithAttrs, hnil, Bool.false_eq_true, if_false, hE] at heq
    exact absurd heq (by simp)
  | ok ss =>
    have hE : appendAttrList attrs (h.indent + h.unopenedGroups.length)
        = .ok (String.join ss) := by
      rw [appendAttrList_renderEach, hR]
      rfl
    simp only [WithAttrs, hnil, Bool.false_eq_true, if_false, hE,
      Except.ok.injEq] at heq
    refine ⟨ss, rfl, ?_, ?_, ?_, ?_, ?_, ?_⟩ <;> rw [← heq]
    · rw [← appendUnopenedGroupsStr_enum]

/-- C4 witness: attaching one string attribute under one pending group
clears the group list and advances the base indentation to 2. -/
theorem c4_witness :
    ((WithAttrs (WithGroup (NewConsoleHandler 0 0 none) "session")
        (.acons (.mk "id" (.str "abc123")) .anil)).toOption.getD
          (NewConsoleHandler 0 0 none)).unopenedGroups = []
    ∧ ((WithAttrs (WithGroup (NewConsoleHandler 0 0 none) "session")
        (.acons (.mk "id" (.str "abc123")) .anil)).toOption.getD
          (NewConsoleHandler 0 0 none)).indent = 2 := by
  have h := c4_withattrs_contract (WithGroup (NewConsoleHandler 0 0 none) "session")
    ((WithAttrs (WithGroup (NewConsoleHandler 0 0 none) "session")
        (.acons (.mk "id" (.str "abc123")) .anil)).toOption.getD
          (NewConsoleHandler 0 0 none))
    (.acons (.mk "id" (.str "abc123")) .anil) rfl rfl
  obtain ⟨ss, _, _, hind, hgroups, _⟩ := h
  exact ⟨hgroups, by rw [hind]; rfl⟩

/-- C5: `Enabled` holds exactly when the configured minimum severity is at
or below the queried level, and the minimum defaults to `LevelInfo` when
no options — or no level inside the options — are supplied. -/
theorem c5_enabled_iff : ∀ (w mu : Nat) (opts : Option HandlerOptions) (L : Level),
    (Enabled (NewConsoleHandler w mu opts) L = true
      ↔ (match opts with
         | none => LevelInfo
         | some o => o.level.getD LevelInfo) ≤ L)
    ∧ (NewConsoleHandler w mu none).level = LevelInfo
    ∧ (NewConsoleHandler w mu (some ⟨none⟩)).level = LevelInfo := by
  intro w mu opts L
  refine ⟨?_, rfl, rfl⟩
  cases opts with
  | none => simp [Enabled, NewConsoleHandler]
  | some o => simp [Enabled, NewConsoleHandler]

/-- C6: a string-kind attribute at level `n` renders as the indentation
string of length `2n`, the normalized key, a colon and space, and the
value wrapped in literal double quotes, ending the line; the empty key
becomes the two-character token `""`, and for clean keys and values the
output is exactly one line. -/
theorem c6_string_attr_format : ∀ (k v : String) (n : Nat),
    appendAttr (.mk k (.str v)) n
      = .ok (getIndent n
          ++ colorize ansiDarkGray (normalizeKey k ++ ": \"" ++ v ++ "\"\n"))
    ∧ (getIndent n).length = 2 * n
    ∧ normalizeKey "" = "\"\""
    ∧ (normalizeKey "").length = 2
    ∧ (keyCleanB k = true → strCleanB v = true →
        ∀ s, appendAttr (.mk k (.str v)) n = .ok s →
          splitLines (stripAnsi s.data)
            = [List.replicate (2 * n) ' '
                ++ (normalizeKey k ++ ": \"" ++ v ++ "\"").data, []]) := by
  intro k v n
  refine ⟨by simp [appendAttr, isVNil], getIndent_length n, rfl, rfl, ?_⟩
  intro hk hv s hs
  have hrel := appendAttr_spec (.mk k (.str v)) n
    (by simp [attrGood, valGood, hk, hv])
  have hL : attrLines (.mk k (.str v)) n
      = .ok [(n, (normalizeKey k ++ ": \"" ++ v ++ "\"").data)] := by
    simp [attrLines, isVNil]
  rw [hs, hL] at hrel
  obtain ⟨hclean, hstrip⟩ := hrel
  have hstr : stripAnsi s.data
      = lineFlat [(n, (normalizeKey k ++ ": \"" ++ v ++ "\"").data)] := by
    simpa using hstrip []
  rw [hstr, splitLines_lineFlat (fun nb hnb => (hclean nb hnb).1)]
  simp

/-- C6 witness: the empty key renders as the literal `""` token. -/
theorem c6_witness :
    keyCleanB "" = true ∧ strCleanB "v" = true
    ∧ splitLines (stripAnsi
        (((appendAttr (.mk "" (.str "v")) 1).toOption.getD "").data))
      = [List.replicate (2 * 1) ' '
          ++ (normalizeKey "" ++ ": \"" ++ "v" ++ "\"").data, []] :=
  ⟨by decide, by decide,
    (c6_string_attr_format "" "v" 1).2.2.2.2 (by decide) (by decide)
      ((appendAttr (.mk "" (.str "v")) 1).toOption.getD "") rfl⟩

/-- C7: an "other"-kind attribute whose value the encoder rejects makes
`appendAttr` abort with the marshaling panic, and a record containing such
an attribute makes `Handle` abort with the panic message — it never
returns a normal success and nothing is written to the sink. -/
theorem c7_unencodable_panics : ∀ (k err : String) (n : Nat)
    (h : Handler) (r : Record),
    appendAttr (.mk k (.other (.bad err))) n
      = .error ("log marshaling error: " ++ err)
    ∧ (hasBad r.attrs = true →
        (∃ msg, Handle h r = .error ("log marshaling error: " ++ msg))
        ∧ ∀ s, Handle h r ≠ .ok s) := by
  intro k err n h r
  refine ⟨by simp [appendAttr, isVNil], ?_⟩
  intro hb
  obtain ⟨msg, hmsg⟩ := Handle_hasBad h r hb
  refine ⟨⟨msg, hmsg⟩, ?_⟩
  intro s hok
  rw [hmsg] at hok
  exact absurd hok (by simp)

/-- C7 witness: a channel-like unencodable value panics with the
marshaling message, and `Handle` of a record carrying it fails. -/
theorem c7_witness :
    appendAttr (.mk "bad" (.other (.bad "json: unsupported type: chan int"))) 1
      = .error ("log marshaling error: " ++ "json: unsupported type: chan int")
    ∧ ∃ msg, Handle (NewConsoleHandler 0 0 none)
        { hasTime := false, timeText := "", level := 0, message := "test"
          attrs := .acons
            (.mk "bad" (.other (.bad "json: unsupported type: chan int"))) .anil }
      = .error ("log marshaling error: " ++ msg) := by
  have h := c7_unencodable_panics "bad" "json: unsupported type: chan int" 1
    (NewConsoleHandler 0 0 none)
    { hasTime := false, timeText := "", level := 0, message := "test"
      attrs := .acons
        (.mk "bad" (.other (.bad "json: unsupported type: chan int"))) .anil }
  exact ⟨h.1, (h.2 (by decide)).1⟩

/-- C8: `WithGroup` with a non-empty name returns a new handler whose
unopened-group list is the parent's list with the name appended, leaving
prefix, indentation, level, sink and mutex untouched; a further
`WithGroup` on the child appends again rather than disturbing the
parent's entries. -/
theorem c8_withgroup_copies : ∀ (h : Handler) (name : String), name ≠ "" →
    (WithGroup h name).unopenedGroups = h.unopenedGroups ++ [name]
    ∧ (WithGroup h name).preBuf = h.preBuf
    ∧ (WithGroup h name).indent = h.indent
    ∧ (WithGroup h name).level = h.level
    ∧ (WithGroup h name).w = h.w
    ∧ (WithGroup h name).mu = h.mu
    ∧ ∀ name2, name2 ≠ "" →
        (WithGroup (WithGroup h name) name2).unopenedGroups
          = h.unopenedGroups ++ [name, name2] := by
  intro h name hne
  rw [WithGroup, if_neg hne]
  refine ⟨rfl, rfl, rfl, rfl, rfl, rfl, ?_⟩
  intro name2 hne2
  rw [WithGroup, if_neg hne2]
  simp

/-- C8 witness: chaining two groups on a fresh handler accumulates both
names in order. -/
theorem c8_witness :
    (WithGroup (NewConsoleHandler 0 0 none) "session").unopenedGroups = ["session"]
    ∧ (WithGroup (WithGroup (NewConsoleHandler 0 0 none) "session")
        "sub").unopenedGroups = ["session", "sub"] := by
  have h := c8_withgroup_copies (NewConsoleHandler 0 0 none) "session" (by decide)
  constructor
  · rw [h.1]
    rfl
  · rw [h.2.2.2.2.2.2 "sub" (by decide)]
    rfl

/-- C10: every handler from `NewConsoleHandler` starts at base indentation
level 1 (two leading spaces), a fresh handler's successful `Handle` output
is the header followed by the record's attributes rendered at level 1, and
a clean string attribute at level 1 yields a line with exactly two leading
spaces — never flush-left. -/
theorem c10_base_indent : ∀ (w mu : Nat) (opts : Option HandlerOptions),
    (NewConsoleHandler w mu opts).indent = 1
    ∧ getIndent 1 = "  "
    ∧ (∀ (r : Record) (s : String), recordGood r = true →
        Handle (NewConsoleHandler w mu opts) r = .ok s →
        ∃ als, attrLinesList r.attrs 1 = .ok als
          ∧ stripAnsi s.data = lineFlat (handleLines r [] [] 1 als))
    ∧ (∀ (k v s : String), keyCleanB k = true → strCleanB v = true →
        appendAttr (.mk k (.str v)) 1 = .ok s →
        (splitLines (stripAnsi s.data)).map leadingSpacesCL = [2, 0]) := by
  intro w mu opts
  refine ⟨rfl, rfl, ?_, ?_⟩
  · intro r s hr hok
    obtain ⟨als, hals, hclean, hstrip⟩ :=
      Handle_spec (NewConsoleHandler w mu opts) r [] s hr (by simp)
        (fun X => by
          show stripAnsi (("" : String).data ++ X) = lineFlat [] ++ stripAnsi X
          simp)
        (by simp [NewConsoleHandler]) hok
    refine ⟨als, by simpa [NewConsoleHandler] using hals, ?_⟩
    simpa [NewConsoleHandler] using hstrip
  · intro k v s hk hv hok
    have hrel := appendAttr_spec (.mk k (.str v)) 1
      (by simp [attrGood, valGood, hk, hv])
    have hL : attrLines (.mk k (.str v)) 1
        = .ok [(1, (normalizeKey k ++ ": \"" ++ v ++ "\"").data)] := by
      simp [attrLines, isVNil]
    rw [hok, hL] at hrel
    obtain ⟨hclean, hstrip⟩ := hrel
    have hstr : stripAnsi s.data
        = lineFlat [(1, (normalizeKey k ++ ": \"" ++ v ++ "\"").data)] := by
      simpa using hstrip []
    rw [hstr, splitLines_lineFlat (fun nb hnb => (hclean nb hnb).1)]
    have hhead := (hclean (1, (normalizeKey k ++ ": \"" ++ v ++ "\"").data)
      (by simp)).2.2
    simp only [List.map_append, List.map_cons, List.map_nil]
    rw [leadingSpaces_replicate hhead (2 * 1)]
    rfl

/-- C10 witness: a fresh handler has base indentation 1, and a top-level
string attribute line carries exactly two leading spaces. -/
theorem c10_witness :
    (NewConsoleHandler 0 0 none).indent = 1
    ∧ (splitLines (stripAnsi
        (((appendAttr (.mk "k" (.str "v")) 1).toOption.getD "").data))).map
          leadingSpacesCL = [2, 0] := by
  have h := c10_base_indent 0 0 none
  exact ⟨h.1, h.2.2.2 "k" "v"
    ((appendAttr (.mk "k" (.str "v")) 1).toOption.getD "")
    (by decide) (by decide) rfl⟩

end Conslog
